import Mathlib

/-!
Verification of the SLADE incremental lexer, embedded from
src/src/TextEditor/Lexer.cpp (classes Lexer and ZScriptLexer).

The buffer is a list of characters; Scintilla's GetCharAt returns the
NUL character beyond the end of the text, which getCharAt mirrors.
Style runs emitted through the style sink (StartStyling followed by a
sequence of SetStyling calls) are modelled as a list of
(length, style) pairs in emission order.

Inner scanning loops of the C++ code advance one position per
iteration up to the inclusive range end, so they are embedded with a
structural counter equal to the exact number of remaining positions
(counter zero if and only if the scan position is past the range
end).  The outer dispatch loop of doStyling is embedded with a fuel
bound proved sufficient below.
-/

namespace Slade

abbrev Buffer := List Char

def getCharAt (buf : Buffer) (pos : Nat) : Char := buf.getD pos (Char.ofNat 0)

def quoteChar : Char := Char.ofNat 34

def squoteChar : Char := Char.ofNat 39

/-- Style codes of Lexer::Style.  The Lexer.h header is not under src/;
the code relies only on Default being 0 (word_list_ entries with style 0
are treated as absent) and the codes being distinct, which these are. -/
def styleDefault : Nat := 0

def styleComment : Nat := 1

def styleCommentDoc : Nat := 2

def styleString : Nat := 3

def styleChar : Nat := 4

def styleKeyword : Nat := 5

def styleConstant : Nat := 6

def styleType : Nat := 7

def styleProperty : Nat := 8

def styleFunction : Nat := 9

def styleOperator : Nat := 10

def styleNumber : Nat := 11

def stylePreprocessor : Nat := 12

/-- The language definition collaborator (TextLanguage), with the word
lists and token lists the lexer reads. -/
structure Language where
  caseSensitive : Bool
  constants : List (List Char)
  properties : List (List Char)
  functions : List (List Char)
  types : List (List Char)
  keywords : List (List Char)
  commentBeginL : List (List Char)
  commentEndL : List (List Char)
  docComment : List Char
  lineCommentL : List (List Char)
  blockBegin : List Char
  blockEnd : List Char
  preprocessor : List Char
  ppBlockBegin : List (List Char)
  ppBlockEnd : List (List Char)
  wordBlockBegin : List (List Char)
  wordBlockEnd : List (List Char)

def Language.emptyLang : Language :=
  ⟨true, [], [], [], [], [], [], [], [], [], [], [], [], [], [], [], []⟩

/-- Modelled from the spec: StrUtil::lower (Utility/StringUtils is not
under src/) case-normalizes a token character by character. -/
def lower (w : List Char) : List Char := w.map Char.toLower

/-- Modelled from the spec: StrUtil::isInteger is not under src/.  The
spec gives the integer forms: optional sign plus decimal digits,
leading-zero octal-like, and 0x hex. -/
def isDigitChar (c : Char) : Bool := decide (Char.ofNat 48 ≤ c) && decide (c ≤ Char.ofNat 57)

def isHexDigitChar (c : Char) : Bool :=
  isDigitChar c || (decide (Char.ofNat 97 ≤ c) && decide (c ≤ Char.ofNat 102))
    || (decide (Char.ofNat 65 ≤ c) && decide (c ≤ Char.ofNat 70))

def allDigits (w : List Char) : Bool := !w.isEmpty && w.all isDigitChar

def isInteger (w : List Char) : Bool :=
  match w with
  | '+' :: rest => allDigits rest
  | '-' :: rest => allDigits rest
  | '0' :: 'x' :: rest => !rest.isEmpty && rest.all isHexDigitChar
  | _ => allDigits w

/-- Modelled from the spec: StrUtil::isFloat is not under src/.  The
spec gives the float form: optional sign, digits, optional decimal
point, digits, optional exponent. -/
def expoOk (w : List Char) : Bool :=
  match w with
  | [] => true
  | c :: rest =>
    (c = 'e' || c = 'E')
      && (let r2 := match rest with
            | '+' :: r => r
            | '-' :: r => r
            | r => r
          allDigits r2)

def isFloat (w : List Char) : Bool :=
  let w1 := match w with
    | '+' :: r => r
    | '-' :: r => r
    | r => r
  let r1 := w1.dropWhile isDigitChar
  match r1 with
  | '.' :: r2 =>
    let d2 := r2.takeWhile isDigitChar
    !d2.isEmpty && expoOk (r2.dropWhile isDigitChar)
  | _ => allDigits (w1.takeWhile isDigitChar) && expoOk r1

/-- Lexer configuration: the members of the Lexer object that styling
reads (language pointer, character classes, word table, fold flags,
recorded preprocessor character), plus the ZScriptLexer specialization
state (the zscript flag selects the virtual styleWord override, and
zfunctions is ZScriptLexer::functions_). -/
structure Cfg where
  language : Option Language
  wordChars : List Char
  operatorChars : List Char
  whitespaceChars : List Char
  wordList : List Char → Nat
  foldComments : Bool
  foldPreprocessor : Bool
  preprocessorChar : Char
  zscript : Bool
  zfunctions : List (List Char)

def Cfg.lang (cfg : Cfg) : Language := cfg.language.getD Language.emptyLang

/-- Default word characters set by the Lexer constructor. -/
def defaultWordChars : List Char :=
  "abcdefghijklmnopqrstuvwxyzABCDEFGHIJKLMNOPQRSTUVWXYZ0123456789_".toList

/-- Default operator characters set by the Lexer constructor. -/
def defaultOperatorChars : List Char := "+-*/=><|~&!".toList

/-- whitespace_chars_ as initialized by the Lexer constructor. -/
def defaultWhitespaceChars : List Char :=
  [Char.ofNat 32, Char.ofNat 10, Char.ofNat 13, Char.ofNat 9]

/-- A freshly constructed Lexer: no language, empty word table,
default character classes. -/
def baseCfg : Cfg :=
  { language := none
    wordChars := defaultWordChars
    operatorChars := defaultOperatorChars
    whitespaceChars := defaultWhitespaceChars
    wordList := fun _ => 0
    foldComments := false
    foldPreprocessor := false
    preprocessorChar := Char.ofNat 0
    zscript := false
    zfunctions := [] }

/-- Lexer::addWord: stores the style keyed by the case-normalized word. -/
def addWordBase (cs : Bool) (tbl : List Char → Nat) (w : List Char) (style : Nat) :
    List Char → Nat :=
  let key := if cs then w else lower w
  fun x => if x = key then style else tbl x

/-- ZScriptLexer::addWord: Function-style words go to the functions_
list, all other styles are delegated to Lexer::addWord. -/
def addWordZ (cs : Bool) (tbl : List Char → Nat) (fns : List (List Char))
    (w : List Char) (style : Nat) : (List Char → Nat) × List (List Char) :=
  if style = styleFunction then (tbl, fns ++ [if cs then w else lower w])
  else (addWordBase cs tbl w style, fns)

/-- One word list added by loadLanguage, via the virtual addWord. -/
def loadList (zscript : Bool) (cs : Bool) (acc : (List Char → Nat) × List (List Char))
    (ws : List (List Char)) (style : Nat) : (List Char → Nat) × List (List Char) :=
  ws.foldl
    (fun a w =>
      if zscript then addWordZ cs a.1 a.2 w style else (addWordBase cs a.1 w style, a.2))
    acc

/-- Lexer::loadLanguage.  clearWords resets the word table; the base
Lexer::clearWords body is not under src/ and is modelled from the spec
(it fully clears the word table), while ZScriptLexer::clearWords (in
src/) additionally clears the function list.  Word lists are then added
in the fixed order Constant, Property, Function, Type, Keyword, and the
preprocessor character is recorded (NUL when the preprocessor string is
empty). -/
def loadLanguage (cfg : Cfg) (olang : Option Language) : Cfg :=
  let cleared := { cfg with language := olang, wordList := fun _ => 0, zfunctions := [] }
  match olang with
  | none => cleared
  | some lang =>
    let cs := lang.caseSensitive
    let t1 := loadList cfg.zscript cs (fun _ => 0, []) lang.constants styleConstant
    let t2 := loadList cfg.zscript cs t1 lang.properties styleProperty
    let t3 := loadList cfg.zscript cs t2 lang.functions styleFunction
    let t4 := loadList cfg.zscript cs t3 lang.types styleType
    let t5 := loadList cfg.zscript cs t4 lang.keywords styleKeyword
    { cleared with
      wordList := t5.1
      zfunctions := t5.2
      preprocessorChar := lang.preprocessor.headD (Char.ofNat 0) }

/-- Lexer::checkToken (single-token overload): character-by-character
comparison of the buffer at pos against a token; an empty token never
matches. -/
def matchesAt (buf : Buffer) (pos : Nat) : List Char → Bool
  | [] => true
  | c :: rest => (getCharAt buf pos = c) && matchesAt buf (pos + 1) rest

def checkToken (buf : Buffer) (pos : Nat) (token : List Char) : Bool :=
  if token.isEmpty then false else matchesAt buf pos token

/-- Lexer::checkToken (list overload): scans the token list from index
0 and reports the first matching index. -/
def checkTokenL (buf : Buffer) (pos : Nat) : List (List Char) → Option Nat
  | [] => none
  | t :: ts =>
    if checkToken buf pos t then some 0
    else (checkTokenL buf pos ts).map (fun i => i + 1)

/-- The FSM states of Lexer::State. -/
inductive LexSt where
  | unknown
  | whitespace
  | comment
  | str
  | chr
  | word
  | op
deriving DecidableEq, Repr

/-- Lexer::LexerState, the transient per-call scanning state. -/
structure LexerState where
  position : Nat
  endPos : Nat
  line : Nat
  state : LexSt
  length : Nat
  foldIncrement : Int
  hasWord : Bool
deriving Repr

/-- A style run: SetStyling(length, style). -/
abbrev Run := Nat × Nat

def sumRuns (rs : List Run) : Nat := rs.foldr (fun r a => r.1 + a) 0

/-- Result of one process* call: the runs it emitted, the updated
scanning state, the updated curr_comment_idx_, whether it assigned -1
to the next line's comment_idx (the end-of-range branch of the scanning
loops), whether it returned through the doc/line-comment early return,
and whether the range is done. -/
structure StepRes where
  runs : List Run
  ls : LexerState
  commentIdx : Int
  clearNext : Bool
  early : Bool
  done : Bool

/-- Result of one scanning loop over a character class or delimiter. -/
structure LoopOut where
  pos : Nat
  len : Nat
  hitEnd : Bool
deriving Repr

/-- The loop shared by processWhitespace and processOperator: consume
characters of the class, counting them into the run length.  The
counter k equals the number of positions remaining up to the inclusive
range end (k = 0 iff the position is past the end). -/
def classRunLoop (chars : List Char) (buf : Buffer) :
    (k : Nat) → (pos : Nat) → (len : Nat) → LoopOut
  | 0, pos, len => ⟨pos, len, true⟩
  | k + 1, pos, len =>
    if getCharAt buf pos ∈ chars then classRunLoop chars buf k (pos + 1) (len + 1)
    else ⟨pos, len, false⟩

/-- The loop shared by processString and processChar: consume until the
closing quote character, which is itself consumed. -/
def quoteRunLoop (q : Char) (buf : Buffer) :
    (k : Nat) → (pos : Nat) → (len : Nat) → LoopOut
  | 0, pos, len => ⟨pos, len, true⟩
  | k + 1, pos, len =>
    if getCharAt buf pos = q then ⟨pos + 1, len + 1, false⟩
    else quoteRunLoop q buf k (pos + 1) (len + 1)

/-- The loop of processComment: consume until the block-comment end
token matches, consuming the token as well. -/
def commentRunLoop (tok : List Char) (buf : Buffer) :
    (k : Nat) → (pos : Nat) → (len : Nat) → LoopOut
  | 0, pos, len => ⟨pos, len, true⟩
  | k + 1, pos, len =>
    if checkToken buf pos tok then ⟨pos + tok.length, len + tok.length, false⟩
    else commentRunLoop tok buf k (pos + 1) (len + 1)

/-- Result of the word-collection loop of processWord. -/
structure WordOut where
  word : List Char
  pos : Nat
  hitEnd : Bool
deriving Repr

def wordRunLoop (wchars : List Char) (buf : Buffer) :
    (k : Nat) → (pos : Nat) → (acc : List Char) → WordOut
  | 0, pos, acc => ⟨acc, pos, true⟩
  | k + 1, pos, acc =>
    if getCharAt buf pos ∈ wchars then
      wordRunLoop wchars buf k (pos + 1) (acc ++ [getCharAt buf pos])
    else ⟨acc, pos, false⟩

/-- ZScriptLexer::styleWord whitespace skip: advance while strictly
before the range end and on a whitespace character. -/
def skipWs (wschars : List Char) (buf : Buffer) : (k : Nat) → (pos : Nat) → Nat
  | 0, pos => pos
  | k + 1, pos =>
    if getCharAt buf pos ∈ wschars then skipWs wschars buf k (pos + 1) else pos

/-- Lexer::styleWord: word-table lookup (positive style wins), then
preprocessor prefix, then number, then Default. -/
def styleWordBase (cfg : Cfg) (word : List Char) : Run :=
  let lang := cfg.lang
  let wstr := if lang.caseSensitive then word else lower word
  if 0 < cfg.wordList wstr then (word.length, cfg.wordList wstr)
  else if lang.preprocessor.isPrefixOf wstr then (word.length, stylePreprocessor)
  else if isInteger word || isFloat word then (word.length, styleNumber)
  else (word.length, styleDefault)

/-- ZScriptLexer::styleWord: skip whitespace after the word while
within the range; if the next character is an opening parenthesis and
the case-normalized word is in the functions_ list, style as Function,
otherwise fall through to Lexer::styleWord. -/
def styleWordZ (cfg : Cfg) (buf : Buffer) (pos endPos : Nat) (word : List Char) : Run :=
  let index := skipWs cfg.whitespaceChars buf (endPos - pos) pos
  if getCharAt buf index = '(' then
    let wstr := if cfg.lang.caseSensitive then word else lower word
    if wstr ∈ cfg.zfunctions then (word.length, styleFunction)
    else styleWordBase cfg word
  else styleWordBase cfg word

/-- Virtual dispatch of styleWord between Lexer and ZScriptLexer. -/
def styleWordD (cfg : Cfg) (buf : Buffer) (pos endPos : Nat) (word : List Char) : Run :=
  if cfg.zscript then styleWordZ cfg buf pos endPos word else styleWordBase cfg word

/-- Outcome of the processUnknown scanning loop: the scan reached past
the range end (styles the accumulated run as Default and clears the
next line's comment_idx), or transitioned to another state, or hit a
doc/line comment which is styled to the end of the range and
terminates the call. -/
inductive UnkOut where
  | reachEnd (u : Nat) (pos : Nat) (fold : Int) (hw : Bool) (ci : Int)
  | trans (u : Nat) (st : LexSt) (pos : Nat) (len : Nat) (fold : Int) (hw : Bool) (ci : Int)
  | lineEnd (u : Nat) (pos : Nat) (doc : Bool) (fold : Int) (hw : Bool) (ci : Int)
deriving Repr

/-- The loop of Lexer::processUnknown, with the branch order of the
source: string quote; no-language passthrough; char quote; block
comment begin (records the found index into curr_comment_idx_); doc
comment; line comment; whitespace; preprocessor character (pp flag set,
consumed provisionally); operator; word (rewinding over the
preprocessor character when pp is set); bare block begin / block end
fold adjustments; otherwise accumulate as Default. -/
def unknownLoop (cfg : Cfg) (buf : Buffer) :
    (k : Nat) → (pos : Nat) → (u : Nat) → (pp : Bool) → (fold : Int) → (hw : Bool) →
      (ci : Int) → UnkOut
  | 0, pos, u, _, fold, hw, ci => .reachEnd u pos fold hw ci
  | k + 1, pos, u, pp, fold, hw, ci =>
    let c := getCharAt buf pos
    if c = quoteChar then .trans u .str (pos + 1) 1 fold true ci
    else
      match cfg.language with
      | none => unknownLoop cfg buf k (pos + 1) (u + 1) pp fold hw ci
      | some lang =>
        if c = squoteChar then .trans u .chr (pos + 1) 1 fold true ci
        else
          match checkTokenL buf pos lang.commentBeginL with
          | some i =>
            let sz := (lang.commentBeginL.getD i []).length
            if cfg.foldComments then
              .trans u .comment (pos + sz) sz (fold + 1) true (Int.ofNat i)
            else .trans u .comment (pos + sz) sz fold hw (Int.ofNat i)
          | none =>
            if checkToken buf pos lang.docComment then .lineEnd u pos true fold hw ci
            else if (checkTokenL buf pos lang.lineCommentL).isSome then
              .lineEnd u pos false fold hw ci
            else if c ∈ cfg.whitespaceChars then .trans u .whitespace (pos + 1) 1 fold hw ci
            else if c = lang.preprocessor.headD (Char.ofNat 0) then
              unknownLoop cfg buf k (pos + 1) (u + 1) true fold hw ci
            else if c ∈ cfg.operatorChars then .trans u .op (pos + 1) 1 fold true ci
            else if c ∈ cfg.wordChars then
              if pp then .trans (u - 1) .word (pos - 1) 0 fold true ci
              else .trans u .word pos 0 fold true ci
            else if checkToken buf pos lang.blockBegin then
              unknownLoop cfg buf k (pos + 1) (u + 1) false (fold + 1) hw ci
            else if checkToken buf pos lang.blockEnd then
              unknownLoop cfg buf k (pos + 1) (u + 1) false (fold - 1) hw ci
            else unknownLoop cfg buf k (pos + 1) (u + 1) false fold hw ci

/-- Lexer::processUnknown. -/
def processUnknown (cfg : Cfg) (buf : Buffer) (ls : LexerState) (ci : Int) : StepRes :=
  match unknownLoop cfg buf (ls.endPos + 1 - ls.position) ls.position 0 false
      ls.foldIncrement ls.hasWord ci with
  | .reachEnd u pos fold hw ci2 =>
    { runs := [(u, styleDefault)]
      ls := { ls with position := pos, foldIncrement := fold, hasWord := hw }
      commentIdx := ci2, clearNext := true, early := false, done := true }
  | .trans u st pos len fold hw ci2 =>
    { runs := [(u, styleDefault)]
      ls := { ls with
              position := pos
              state := st
              length := len
              foldIncrement := fold
              hasWord := hw }
      commentIdx := ci2, clearNext := false, early := false, done := false }
  | .lineEnd u pos doc fold hw ci2 =>
    { runs := [(u, styleDefault),
               (ls.endPos + 1 - pos, if doc then styleCommentDoc else styleComment)]
      ls := { ls with position := pos, foldIncrement := fold, hasWord := hw }
      commentIdx := ci2, clearNext := false, early := true, done := true }

/-- Common wrapper for the four scanning bodies that consume a run and
style it with a fixed style: processWhitespace and processOperator (over
a character class) and processString and processChar (up to a closing
quote); their loop results are packaged identically in the source. -/
def packRun (r : LoopOut) (style : Nat) (ls : LexerState) (ci : Int) : StepRes :=
  { runs := [(r.len, style)]
    ls := { ls with
            position := r.pos
            length := r.len
            state := if r.hitEnd then ls.state else .unknown }
    commentIdx := ci, clearNext := r.hitEnd, early := false, done := r.hitEnd }

/-- Lexer::processWhitespace. -/
def processWhitespace (cfg : Cfg) (buf : Buffer) (ls : LexerState) (ci : Int) : StepRes :=
  packRun
    (classRunLoop cfg.whitespaceChars buf (ls.endPos + 1 - ls.position) ls.position ls.length)
    styleDefault ls ci

/-- Lexer::processOperator. -/
def processOperator (cfg : Cfg) (buf : Buffer) (ls : LexerState) (ci : Int) : StepRes :=
  packRun
    (classRunLoop cfg.operatorChars buf (ls.endPos + 1 - ls.position) ls.position ls.length)
    styleOperator ls ci

/-- Lexer::processString. -/
def processString (cfg : Cfg) (buf : Buffer) (ls : LexerState) (ci : Int) : StepRes :=
  packRun (quoteRunLoop quoteChar buf (ls.endPos + 1 - ls.position) ls.position ls.length)
    styleString ls ci

/-- Lexer::processChar. -/
def processChar (cfg : Cfg) (buf : Buffer) (ls : LexerState) (ci : Int) : StepRes :=
  packRun (quoteRunLoop squoteChar buf (ls.endPos + 1 - ls.position) ls.position ls.length)
    styleChar ls ci

/-- Packaging of the processComment loop result: on reaching the range
end the comment run is styled and the call is done; on an end-token
match the state returns to Unknown, curr_comment_idx_ is reset and the
fold level is decremented when comment folding is enabled. -/
def packComment (cfg : Cfg) (r : LoopOut) (ls : LexerState) (ci : Int) : StepRes :=
  if r.hitEnd then
    { runs := [(r.len, styleComment)]
      ls := { ls with position := r.pos, length := r.len }
      commentIdx := ci, clearNext := false, early := false, done := true }
  else
    { runs := [(r.len, styleComment)]
      ls := { ls with
              position := r.pos
              length := r.len
              state := .unknown
              foldIncrement :=
                if cfg.foldComments then ls.foldIncrement - 1 else ls.foldIncrement }
      commentIdx := -1, clearNext := false, early := false, done := false }

/-- Lexer::processComment: the end token is looked up from the current
comment index (empty when no comment is open). -/
def processComment (cfg : Cfg) (buf : Buffer) (ls : LexerState) (ci : Int) : StepRes :=
  let tok := if 0 ≤ ci then cfg.lang.commentEndL.getD ci.toNat [] else []
  packComment cfg
    (commentRunLoop tok buf (ls.endPos + 1 - ls.position) ls.position ls.length) ls ci

/-- Lexer::processWord: the first character is consumed unconditionally,
then word characters are collected; fold increments from the pp or word
block keyword lists are applied, and the word is styled through the
virtual styleWord. -/
def processWord (cfg : Cfg) (buf : Buffer) (ls : LexerState) (ci : Int) : StepRes :=
  let c0 := getCharAt buf ls.position
  let r := wordRunLoop cfg.wordChars buf (ls.endPos + 1 - (ls.position + 1))
    (ls.position + 1) [c0]
  let wordLower := lower r.word
  let lang := cfg.lang
  let fold2 :=
    if cfg.foldPreprocessor && (c0 = cfg.preprocessorChar) then
      if wordLower ∈ lang.ppBlockBegin then ls.foldIncrement + 1
      else if wordLower ∈ lang.ppBlockEnd then ls.foldIncrement - 1
      else ls.foldIncrement
    else
      if wordLower ∈ lang.wordBlockBegin then ls.foldIncrement + 1
      else if wordLower ∈ lang.wordBlockEnd then ls.foldIncrement - 1
      else ls.foldIncrement
  { runs := [styleWordD cfg buf r.pos ls.endPos r.word]
    ls := { ls with
            position := r.pos
            state := if r.hitEnd then ls.state else .unknown
            foldIncrement := fold2 }
    commentIdx := ci, clearNext := r.hitEnd, early := false, done := r.hitEnd }

/-- One iteration of the doStyling dispatch loop. -/
def stepFor (cfg : Cfg) (buf : Buffer) (ls : LexerState) (ci : Int) : StepRes :=
  match ls.state with
  | .whitespace => processWhitespace cfg buf ls ci
  | .comment => processComment cfg buf ls ci
  | .str => processString cfg buf ls ci
  | .chr => processChar cfg buf ls ci
  | .word => processWord cfg buf ls ci
  | .op => processOperator cfg buf ls ci
  | .unknown => processUnknown cfg buf ls ci

/-- Termination rank of a state for the dispatch loop measure. -/
def rankSt : LexSt → Nat
  | .word => 0
  | .unknown => 1
  | _ => 2

/-- Measure of the dispatch loop: strictly decreases at every
non-final iteration (proved in stepFor_progress below). -/
def measureLs (ls : LexerState) : Nat :=
  3 * (ls.endPos + 2 - ls.position) + rankSt ls.state

/-- Accumulated result of the dispatch loop. -/
structure RunRes where
  runs : List Run
  ls : LexerState
  commentIdx : Int
  clearNext : Bool
  early : Bool

/-- The doStyling dispatch loop, with fuel; doStyling supplies fuel
strictly greater than the measure, which is proved sufficient. -/
def runMachineF (cfg : Cfg) (buf : Buffer) :
    (fuel : Nat) → (ls : LexerState) → (ci : Int) → RunRes
  | 0, ls, ci => ⟨[], ls, ci, false, false⟩
  | fuel + 1, ls, ci =>
    let r := stepFor cfg buf ls ci
    if r.done then ⟨r.runs, r.ls, r.commentIdx, r.clearNext, r.early⟩
    else
      let rest := runMachineF cfg buf fuel r.ls r.commentIdx
      ⟨r.runs ++ rest.runs, rest.ls, rest.commentIdx, rest.clearNext, rest.early⟩

def runMachine (cfg : Cfg) (buf : Buffer) (ls : LexerState) (ci : Int) : RunRes :=
  runMachineF cfg buf (measureLs ls + 1) ls ci

/-- Per-line persisted state (Lexer::LineInfo). -/
structure LineInfo where
  commentIdx : Int
  foldIncrement : Int
  hasWord : Bool
deriving DecidableEq, Repr

def LineInfo.initial : LineInfo := ⟨-1, 0, false⟩

abbrev Lines := Nat → LineInfo

def setLine (lines : Lines) (n : Nat) (v : LineInfo) : Lines :=
  fun m => if m = n then v else lines m

/-- Result of Lexer::doStyling: the emitted style runs, the updated
line table, the boolean return value, and (for stating properties) the
final FSM state, the final curr_comment_idx_, and whether the call
ended through the doc/line-comment early return. -/
structure StyleResult where
  runs : List Run
  lines : Lines
  result : Bool
  finalState : LexSt
  finalCommentIdx : Int
  early : Bool

/-- The dispatch loop of doStyling, started from the initial state that
doStyling derives: Comment with the starting line's continuation id
when that line is marked as inside a block comment, Unknown otherwise. -/
def styleMachine (cfg : Cfg) (buf : Buffer) (lines : Lines)
    (startPos endPos : Nat) (line : Nat) : RunRes :=
  let st0 := if 0 ≤ (lines line).commentIdx then LexSt.comment else LexSt.unknown
  let ci0 := if 0 ≤ (lines line).commentIdx then (lines line).commentIdx else -1
  runMachine cfg buf ⟨startPos, endPos, line, st0, 0, 0, false⟩ ci0

/-- The line-table updates at the end of doStyling: the in-loop clear
of the next line's comment_idx (recorded in clearNext), then the current
line's fold_increment and has_word, then the state-dependent tail: a
final Comment state propagates curr_comment_idx_ to the next line, a
final Whitespace state clears both the current and the next line. -/
def applyLineUpdates (r : RunRes) (lines : Lines) (line : Nat) : Lines :=
  let lines1 :=
    if r.clearNext then
      setLine lines (line + 1) { lines (line + 1) with commentIdx := -1 }
    else lines
  let lines2 :=
    setLine lines1 line
      { lines1 line with foldIncrement := r.ls.foldIncrement, hasWord := r.ls.hasWord }
  if r.ls.state = .comment then
    setLine lines2 (line + 1) { lines2 (line + 1) with commentIdx := r.commentIdx }
  else if r.ls.state = .whitespace then
    let lA := setLine lines2 line { lines2 line with commentIdx := -1 }
    setLine lA (line + 1) { lA (line + 1) with commentIdx := -1 }
  else lines2

/-- Lexer::doStyling for the range from startPos to endPos (inclusive),
where line is the buffer line of startPos: derives the initial state
from the starting line's comment_idx, runs the dispatch loop, then
stores the current line's fold increment and has-word flag and updates
the comment continuation of the next line as in the source.  The
boolean return value is true exactly when the final state is Comment. -/
def doStyling (cfg : Cfg) (buf : Buffer) (lines : Lines)
    (startPos endPos : Nat) (line : Nat) : StyleResult :=
  let r := styleMachine cfg buf lines startPos endPos line
  ⟨r.runs, applyLineUpdates r lines line, decide (r.ls.state = .comment),
    r.ls.state, r.commentIdx, r.early⟩

/-- Scintilla fold-level constants (wxSTC_FOLDLEVELBASE,
wxSTC_FOLDLEVELNUMBERMASK, wxSTC_FOLDLEVELHEADERFLAG). -/
def foldLevelBase : Nat := 0x400

def foldLevelNumberMask : Nat := 0xFFF

def foldLevelHeaderFlag : Nat := 0x2000

/-- The loop of Lexer::updateFolding: walks count lines from line l,
carrying the running fold level; emits SetFoldLevel(line, value) calls
(line index as an integer, since the header can be attached to line
l - 1, which is -1 when l = 0). -/
def updateFoldingGo (lines : Lines) : (l : Nat) → (count : Nat) → (foldLevel : Nat) →
    List (Int × Nat)
  | _, 0, _ => []
  | l, count + 1, foldLevel =>
    let nl : Int := (foldLevel : Int) + (lines l).foldIncrement
    let nextLevel : Nat := if nl < (foldLevelBase : Int) then foldLevelBase else nl.toNat
    let out :=
      if foldLevel < nextLevel then
        if (lines l).hasWord = false then
          [((l : Int) - 1, foldLevel ||| foldLevelHeaderFlag), ((l : Int), nextLevel)]
        else [((l : Int), foldLevel ||| foldLevelHeaderFlag)]
      else [((l : Int), foldLevel)]
    out ++ updateFoldingGo lines (l + 1) count nextLevel

/-- Lexer::updateFolding: baseLevel is the editor's fold level at
lineStart masked with wxSTC_FOLDLEVELNUMBERMASK. -/
def updateFolding (lines : Lines) (lineCount lineStart : Nat) (baseLevel : Nat) :
    List (Int × Nat) :=
  updateFoldingGo lines lineStart (lineCount - lineStart) baseLevel

/-! ### Loop specifications -/

theorem checkToken_pos (buf : Buffer) (pos : Nat) (t : List Char)
    (h : checkToken buf pos t = true) : 0 < t.length := by
  cases t with
  | nil => simp [checkToken] at h
  | cons c rest => simp

theorem checkTokenL_spec (buf : Buffer) (pos : Nat) :
    ∀ (ts : List (List Char)) (i : Nat), checkTokenL buf pos ts = some i →
      i < ts.length ∧ checkToken buf pos (ts.getD i []) = true ∧
        ∀ j, j < i → checkToken buf pos (ts.getD j []) = false := by
  intro ts
  induction ts with
  | nil => intro i h; simp [checkTokenL] at h
  | cons t rest ih =>
    intro i h
    by_cases hm : checkToken buf pos t = true
    · simp [checkTokenL, hm] at h
      subst h
      refine ⟨by simp, by simpa using hm, ?_⟩
      intro j hj; omega
    · simp only [checkTokenL, if_neg hm] at h
      cases hrec : checkTokenL buf pos rest with
      | none => rw [hrec] at h; simp at h
      | some i0 =>
        rw [hrec] at h
        simp only [Option.map_some'] at h
        have hii : i0 + 1 = i := Option.some.inj h
        subst hii
        obtain ⟨h1, h2, h3⟩ := ih i0 hrec
        refine ⟨by simpa using h1, by simpa using h2, ?_⟩
        intro j hj
        cases j with
        | zero => simpa using (Bool.eq_false_iff.mpr hm)
        | succ j0 => simpa using h3 j0 (by omega)

theorem classRunLoop_spec (chars : List Char) (buf : Buffer) :
    ∀ (k pos len : Nat) (r : LoopOut), classRunLoop chars buf k pos len = r →
      r.len + pos = len + r.pos ∧ pos ≤ r.pos ∧
        (r.hitEnd = true → r.pos = pos + k) ∧ (r.hitEnd = false → r.pos < pos + k) := by
  intro k
  induction k with
  | zero =>
    intro pos len r h
    simp only [classRunLoop] at h
    subst h
    simp
  | succ k ih =>
    intro pos len r h
    simp only [classRunLoop] at h
    by_cases hc : getCharAt buf pos ∈ chars
    · rw [if_pos hc] at h
      obtain ⟨h1, h2, h3, h4⟩ := ih (pos + 1) (len + 1) r h
      exact ⟨by omega, by omega, fun he => by have := h3 he; omega,
        fun he => by have := h4 he; omega⟩
    · rw [if_neg hc] at h
      subst h
      refine ⟨?_, ?_, ?_, ?_⟩ <;> simp <;> omega

theorem quoteRunLoop_spec (q : Char) (buf : Buffer) :
    ∀ (k pos len : Nat) (r : LoopOut), quoteRunLoop q buf k pos len = r →
      r.len + pos = len + r.pos ∧ pos ≤ r.pos ∧
        (r.hitEnd = true → r.pos = pos + k) ∧
        (r.hitEnd = false → pos < r.pos ∧ r.pos ≤ pos + k) := by
  intro k
  induction k with
  | zero =>
    intro pos len r h
    simp only [quoteRunLoop] at h
    subst h
    simp
  | succ k ih =>
    intro pos len r h
    simp only [quoteRunLoop] at h
    by_cases hc : getCharAt buf pos = q
    · rw [if_pos hc] at h
      subst h
      refine ⟨?_, ?_, ?_, ?_⟩ <;> simp <;> omega
    · rw [if_neg hc] at h
      obtain ⟨h1, h2, h3, h4⟩ := ih (pos + 1) (len + 1) r h
      exact ⟨by omega, by omega, fun he => by have := h3 he; omega,
        fun he => by have := h4 he; omega⟩

theorem commentRunLoop_spec (tok : List Char) (buf : Buffer) :
    ∀ (k pos len : Nat) (r : LoopOut), commentRunLoop tok buf k pos len = r →
      r.len + pos = len + r.pos ∧ pos ≤ r.pos ∧
        (r.hitEnd = true → r.pos = pos + k) ∧
        (r.hitEnd = false → pos < r.pos) := by
  intro k
  induction k with
  | zero =>
    intro pos len r h
    simp only [commentRunLoop] at h
    subst h
    simp
  | succ k ih =>
    intro pos len r h
    simp only [commentRunLoop] at h
    by_cases hc : checkToken buf pos tok = true
    · rw [if_pos hc] at h
      subst h
      have htl := checkToken_pos buf pos tok hc
      refine ⟨?_, ?_, ?_, ?_⟩ <;> simp <;> omega
    · rw [if_neg (by simpa using hc)] at h
      obtain ⟨h1, h2, h3, h4⟩ := ih (pos + 1) (len + 1) r h
      exact ⟨by omega, by omega, fun he => by have := h3 he; omega,
        fun he => by have := h4 he; omega⟩

theorem wordRunLoop_spec (wchars : List Char) (buf : Buffer) :
    ∀ (k pos : Nat) (acc : List Char) (r : WordOut), wordRunLoop wchars buf k pos acc = r →
      r.word.length + pos = acc.length + r.pos ∧ pos ≤ r.pos ∧
        (r.hitEnd = true → r.pos = pos + k) ∧ (r.hitEnd = false → r.pos < pos + k) := by
  intro k
  induction k with
  | zero =>
    intro pos acc r h
    simp only [wordRunLoop] at h
    subst h
    simp
  | succ k ih =>
    intro pos acc r h
    simp only [wordRunLoop] at h
    by_cases hc : getCharAt buf pos ∈ wchars
    · rw [if_pos hc] at h
      obtain ⟨h1, h2, h3, h4⟩ := ih (pos + 1) (acc ++ [getCharAt buf pos]) r h
      simp only [List.length_append, List.length_cons, List.length_nil] at h1
      exact ⟨by omega, by omega, fun he => by have := h3 he; omega,
        fun he => by have := h4 he; omega⟩
    · rw [if_neg hc] at h
      subst h
      refine ⟨?_, ?_, ?_, ?_⟩ <;> simp <;> omega

/-- Specification clauses for the processUnknown loop, relative to the
entry position pos, accumulated default-run length u and pp flag, with
k remaining positions: run-length accounting, position bounds for each
outcome, a nonnegative comment index on a comment transition, and that
transitions never target Unknown. -/
def UnkSpec (k pos u : Nat) (pp : Bool) : UnkOut → Prop
  | .reachEnd u2 p2 _ _ _ => u2 + pos = u + p2 ∧ p2 = pos + k
  | .trans u2 st p2 len2 _ _ ci2 =>
      1 ≤ k ∧ u2 + len2 + pos = u + p2 ∧
        (st = .word → len2 = 0 ∧ (if pp then pos - 1 else pos) ≤ p2) ∧
        (st ≠ .word → pos + 1 ≤ p2) ∧
        (st = .comment → 0 ≤ ci2) ∧ st ≠ .unknown
  | .lineEnd u2 p2 _ _ _ _ => 1 ≤ k ∧ u2 + pos = u + p2 ∧ pos ≤ p2 ∧ p2 + 1 ≤ pos + k

theorem UnkSpec_step (k pos u : Nat) (pp pp2 : Bool) (res : UnkOut)
    (h : UnkSpec k (pos + 1) (u + 1) pp2 res) : UnkSpec (k + 1) pos u pp res := by
  cases res with
  | reachEnd u2 p2 f2 h2 c2 =>
    simp only [UnkSpec] at h ⊢
    omega
  | trans u2 st p2 len2 f2 h2 c2 =>
    simp only [UnkSpec] at h ⊢
    obtain ⟨hk, hid, hw1, hw2, hc, hu⟩ := h
    refine ⟨by omega, by omega, ?_, ?_, hc, hu⟩
    · intro hst
      obtain ⟨hl, hp⟩ := hw1 hst
      refine ⟨hl, ?_⟩
      cases pp <;> cases pp2 <;> simp_all <;> omega
    · intro hst
      have := hw2 hst
      omega
  | lineEnd u2 p2 d2 f2 h2 c2 =>
    simp only [UnkSpec] at h ⊢
    omega

set_option maxHeartbeats 1000000 in
theorem unknownLoop_spec (cfg : Cfg) (buf : Buffer) :
    ∀ (k pos u : Nat) (pp : Bool) (fold : Int) (hw : Bool) (ci : Int),
      (pp = true → 1 ≤ u ∧ 1 ≤ pos) →
      UnkSpec k pos u pp (unknownLoop cfg buf k pos u pp fold hw ci) := by
  intro k
  induction k with
  | zero =>
    intro pos u pp fold hw ci hpp
    simp [unknownLoop, UnkSpec]
  | succ k ih =>
    intro pos u pp fold hw ci hpp
    have htriv : ∀ (a b : Nat) (q : Bool), q = true → 1 ≤ a + 1 ∧ 1 ≤ b + 1 := by
      intro a b q hq
      omega
    simp only [unknownLoop]
    split
    · simp [UnkSpec] <;> omega
    · split
      · exact UnkSpec_step k pos u pp pp _ (ih (pos + 1) (u + 1) pp _ _ _ (htriv u pos pp))
      · rename_i olang lang hlang
        split
        · simp [UnkSpec] <;> omega
        · split
          · rename_i i heq
            have hspec := checkTokenL_spec buf pos _ i heq
            have hlen : 0 < ((lang.commentBeginL.getD i []).length) :=
              checkToken_pos buf pos _ hspec.2.1
            split
            · simp only [UnkSpec]
              refine ⟨by omega, by omega, by simp, by intro hst; omega, ?_, by simp⟩
              intro hst
              exact Int.ofNat_nonneg i
            · simp only [UnkSpec]
              refine ⟨by omega, by omega, by simp, by intro hst; omega, ?_, by simp⟩
              intro hst
              exact Int.ofNat_nonneg i
          · split
            · simp [UnkSpec] <;> omega
            · split
              · simp [UnkSpec] <;> omega
              · split
                · simp [UnkSpec] <;> omega
                · split
                  · exact UnkSpec_step k pos u pp true _
                      (ih (pos + 1) (u + 1) true _ _ _ (htriv u pos true))
                  · split
                    · simp [UnkSpec] <;> omega
                    · split
                      · split
                        · rename_i hppt
                          obtain ⟨hu1, hp1⟩ := hpp hppt
                          simp only [UnkSpec]
                          refine ⟨by omega, by omega, ?_, by simp, by simp, by simp⟩
                          intro hst
                          simp [hppt]
                        · rename_i hppf
                          simp only [UnkSpec]
                          refine ⟨by omega, by omega, ?_, by simp, by simp, by simp⟩
                          intro hst
                          simp at hppf
                          simp [hppf]
                      · split
                        · exact UnkSpec_step k pos u pp false _
                            (ih (pos + 1) (u + 1) false _ _ _ (htriv u pos false))
                        · split
                          · exact UnkSpec_step k pos u pp false _
                              (ih (pos + 1) (u + 1) false _ _ _ (htriv u pos false))
                          · exact UnkSpec_step k pos u pp false _
                              (ih (pos + 1) (u + 1) false _ _ _ (htriv u pos false))

/-! ### Per-process specifications -/

theorem sumRuns_single (a b : Nat) : sumRuns [(a, b)] = a := by
  simp [sumRuns]

theorem sumRuns_one (x : Run) : sumRuns [x] = x.1 := by
  simp [sumRuns]

theorem sumRuns_pair (a b c d : Nat) : sumRuns [(a, b), (c, d)] = a + c := by
  simp [sumRuns]

theorem sumRuns_append (xs ys : List Run) : sumRuns (xs ++ ys) = sumRuns xs + sumRuns ys := by
  induction xs with
  | nil => simp [sumRuns]
  | cons x xs ih => simp [sumRuns] at ih ⊢; omega

/-- Characters pending in the current run that have been consumed but
not yet styled: the run length for the active run states, zero for
Unknown (which styles its own accumulator) and Word (which styles the
collected word). -/
def pendOf (ls : LexerState) : Nat :=
  match ls.state with
  | .unknown => 0
  | .word => 0
  | _ => ls.length

theorem pendOf_eq_length (ls2 : LexerState)
    (h1 : ls2.state = .word → ls2.length = 0) (h2 : ls2.state ≠ .unknown) :
    pendOf ls2 = ls2.length := by
  cases h : ls2.state <;> simp_all [pendOf]

theorem styleWordBase_len (cfg : Cfg) (w : List Char) :
    (styleWordBase cfg w).1 = w.length := by
  simp [styleWordBase, apply_ite Prod.fst]

theorem styleWordD_len (cfg : Cfg) (buf : Buffer) (p e : Nat) (w : List Char) :
    (styleWordD cfg buf p e w).1 = w.length := by
  simp only [styleWordD, styleWordZ]
  repeat' split
  all_goals first | rfl | exact styleWordBase_len cfg w

theorem packRun_spec (r0 : LoopOut) (style : Nat) (ls : LexerState) (ci : Int)
    (hacc : r0.len + ls.position = ls.length + r0.pos)
    (hmono : ls.position ≤ r0.pos)
    (hend : r0.hitEnd = true → ls.endPos + 1 ≤ r0.pos) :
    (packRun r0 style ls ci).ls.endPos = ls.endPos ∧
      (packRun r0 style ls ci).ls.line = ls.line ∧
      (packRun r0 style ls ci).commentIdx = ci ∧
      (packRun r0 style ls ci).early = false ∧
      (packRun r0 style ls ci).clearNext = (packRun r0 style ls ci).done ∧
      (∀ x ∈ (packRun r0 style ls ci).runs, x.2 = style) ∧
      ((packRun r0 style ls ci).done = true →
        (packRun r0 style ls ci).ls.state = ls.state ∧
          ls.endPos + 1 + ls.length ≤ ls.position + sumRuns (packRun r0 style ls ci).runs) ∧
      ((packRun r0 style ls ci).done = false →
        (packRun r0 style ls ci).ls.state = .unknown ∧
          ls.length + (packRun r0 style ls ci).ls.position ≤
            ls.position + sumRuns (packRun r0 style ls ci).runs ∧
          ls.position ≤ (packRun r0 style ls ci).ls.position) := by
  refine ⟨rfl, rfl, rfl, rfl, rfl, ?_, ?_, ?_⟩
  · intro x hx
    have hx2 : x = (r0.len, style) := by
      simpa [packRun] using hx
    rw [hx2]
  · intro hd
    have hdd : r0.hitEnd = true := hd
    refine ⟨?_, ?_⟩
    · show (if r0.hitEnd = true then ls.state else LexSt.unknown) = ls.state
      rw [if_pos hdd]
    · show ls.endPos + 1 + ls.length ≤ ls.position + sumRuns [(r0.len, style)]
      rw [sumRuns_single]
      have := hend hdd
      omega
  · intro hd
    have hdd : r0.hitEnd = false := hd
    refine ⟨?_, ?_, hmono⟩
    · show (if r0.hitEnd = true then ls.state else LexSt.unknown) = LexSt.unknown
      rw [hdd]
      rfl
    · show ls.length + r0.pos ≤ ls.position + sumRuns [(r0.len, style)]
      rw [sumRuns_single]
      omega

theorem processWord_spec (cfg : Cfg) (buf : Buffer) (ls : LexerState) (ci : Int) :
    (processWord cfg buf ls ci).ls.endPos = ls.endPos ∧
      (processWord cfg buf ls ci).ls.line = ls.line ∧
      (processWord cfg buf ls ci).commentIdx = ci ∧
      (processWord cfg buf ls ci).early = false ∧
      (processWord cfg buf ls ci).clearNext = (processWord cfg buf ls ci).done ∧
      ((processWord cfg buf ls ci).done = true →
        (processWord cfg buf ls ci).ls.state = ls.state ∧
          ls.endPos + 1 ≤ ls.position + sumRuns (processWord cfg buf ls ci).runs) ∧
      ((processWord cfg buf ls ci).done = false →
        (processWord cfg buf ls ci).ls.state = .unknown ∧
          (processWord cfg buf ls ci).ls.position ≤
            ls.position + sumRuns (processWord cfg buf ls ci).runs ∧
          ls.position + 1 ≤ (processWord cfg buf ls ci).ls.position ∧
          (processWord cfg buf ls ci).ls.position ≤ ls.endPos) := by
  obtain ⟨h1, h2, h3, h4⟩ := wordRunLoop_spec cfg.wordChars buf
    (ls.endPos + 1 - (ls.position + 1)) (ls.position + 1) [getCharAt buf ls.position] _ rfl
  simp only [List.length_cons, List.length_nil] at h1
  simp only [processWord, sumRuns_one, styleWordD_len]
  refine ⟨by trivial, by trivial, by trivial, by trivial, by trivial, ?_, ?_⟩
  · intro hd
    simp only [hd, if_pos rfl]
    refine ⟨rfl, ?_⟩
    have := h3 hd
    omega
  · intro hd
    simp only [hd]
    have := h4 hd
    refine ⟨by simp, by omega, by omega, by omega⟩

theorem packComment_spec (cfg : Cfg) (r0 : LoopOut) (ls : LexerState) (ci : Int)
    (hacc : r0.len + ls.position = ls.length + r0.pos)
    (hmono : ls.position ≤ r0.pos)
    (hend : r0.hitEnd = true → ls.endPos + 1 ≤ r0.pos) :
    (packComment cfg r0 ls ci).ls.endPos = ls.endPos ∧
      (packComment cfg r0 ls ci).ls.line = ls.line ∧
      (packComment cfg r0 ls ci).early = false ∧
      (packComment cfg r0 ls ci).clearNext = false ∧
      ((packComment cfg r0 ls ci).done = true →
        (packComment cfg r0 ls ci).ls.state = ls.state ∧
          (packComment cfg r0 ls ci).commentIdx = ci ∧
          ls.endPos + 1 + ls.length ≤
            ls.position + sumRuns (packComment cfg r0 ls ci).runs) ∧
      ((packComment cfg r0 ls ci).done = false →
        (packComment cfg r0 ls ci).ls.state = .unknown ∧
          ls.length + (packComment cfg r0 ls ci).ls.position ≤
            ls.position + sumRuns (packComment cfg r0 ls ci).runs ∧
          ls.position ≤ (packComment cfg r0 ls ci).ls.position) := by
  simp only [packComment]
  split
  · rename_i hhit
    refine ⟨rfl, rfl, rfl, rfl, ?_, ?_⟩
    · intro hd
      refine ⟨rfl, rfl, ?_⟩
      rw [sumRuns_single]
      have := hend hhit
      omega
    · intro hd
      simp at hd
  · rename_i hhit
    refine ⟨rfl, rfl, rfl, rfl, ?_, ?_⟩
    · intro hd
      simp at hd
    · intro hd
      refine ⟨rfl, ?_, hmono⟩
      show ls.length + r0.pos ≤ ls.position + sumRuns [(r0.len, styleComment)]
      rw [sumRuns_single]
      omega

theorem processComment_spec (cfg : Cfg) (buf : Buffer) (ls : LexerState) (ci : Int) :
    (processComment cfg buf ls ci).ls.endPos = ls.endPos ∧
      (processComment cfg buf ls ci).ls.line = ls.line ∧
      (processComment cfg buf ls ci).early = false ∧
      (processComment cfg buf ls ci).clearNext = false ∧
      ((processComment cfg buf ls ci).done = true →
        (processComment cfg buf ls ci).ls.state = ls.state ∧
          (processComment cfg buf ls ci).commentIdx = ci ∧
          ls.endPos + 1 + ls.length ≤
            ls.position + sumRuns (processComment cfg buf ls ci).runs) ∧
      ((processComment cfg buf ls ci).done = false →
        (processComment cfg buf ls ci).ls.state = .unknown ∧
          ls.length + (processComment cfg buf ls ci).ls.position ≤
            ls.position + sumRuns (processComment cfg buf ls ci).runs ∧
          ls.position ≤ (processComment cfg buf ls ci).ls.position) := by
  obtain ⟨h1, h2, h3, h4⟩ := commentRunLoop_spec
    (if 0 ≤ ci then cfg.lang.commentEndL.getD ci.toNat [] else []) buf
    (ls.endPos + 1 - ls.position) ls.position ls.length _ rfl
  exact packComment_spec cfg _ ls ci h1 h2 (fun hh => by have := h3 hh; omega)

theorem processUnknown_spec (cfg : Cfg) (buf : Buffer) (ls : LexerState) (ci : Int) :
    (processUnknown cfg buf ls ci).ls.endPos = ls.endPos ∧
      (processUnknown cfg buf ls ci).ls.line = ls.line ∧
      ((processUnknown cfg buf ls ci).done = true →
        (processUnknown cfg buf ls ci).ls.state = ls.state ∧
          ls.endPos + 1 ≤ ls.position + sumRuns (processUnknown cfg buf ls ci).runs ∧
          ((processUnknown cfg buf ls ci).early = false →
            (processUnknown cfg buf ls ci).clearNext = true)) ∧
      ((processUnknown cfg buf ls ci).done = false →
        (processUnknown cfg buf ls ci).clearNext = false ∧
          (processUnknown cfg buf ls ci).early = false ∧
          (processUnknown cfg buf ls ci).ls.state ≠ .unknown ∧
          ((processUnknown cfg buf ls ci).ls.state = .word →
            (processUnknown cfg buf ls ci).ls.length = 0 ∧
              ls.position ≤ (processUnknown cfg buf ls ci).ls.position) ∧
          ((processUnknown cfg buf ls ci).ls.state ≠ .word →
            ls.position + 1 ≤ (processUnknown cfg buf ls ci).ls.position ∧
              ls.position ≤ ls.endPos) ∧
          ((processUnknown cfg buf ls ci).ls.state = .comment →
            0 ≤ (processUnknown cfg buf ls ci).commentIdx) ∧
          (processUnknown cfg buf ls ci).ls.position ≤
            (processUnknown cfg buf ls ci).ls.length + ls.position +
              sumRuns (processUnknown cfg buf ls ci).runs) := by
  have hs := unknownLoop_spec cfg buf (ls.endPos + 1 - ls.position) ls.position 0 false
    ls.foldIncrement ls.hasWord ci (by simp)
  simp only [processUnknown]
  split
  · rename_i u2 p2 f2 h2 ci2 heq
    rw [heq] at hs
    simp only [UnkSpec] at hs
    refine ⟨rfl, rfl, ?_, ?_⟩
    · intro hd
      refine ⟨rfl, ?_, fun _ => rfl⟩
      show ls.endPos + 1 ≤ ls.position + sumRuns [(u2, styleDefault)]
      rw [sumRuns_single]
      omega
    · intro hd
      simp at hd
  · rename_i u2 st p2 len2 f2 h2 ci2 heq
    rw [heq] at hs
    simp only [UnkSpec] at hs
    obtain ⟨hk, hid, hword, hnw, hci, hnu⟩ := hs
    refine ⟨rfl, rfl, ?_, ?_⟩
    · intro hd
      simp at hd
    · intro hd
      refine ⟨rfl, rfl, ?_, ?_, ?_, ?_, ?_⟩
      · show st ≠ LexSt.unknown
        exact hnu
      · intro hw2
        have hw3 : st = LexSt.word := hw2
        obtain ⟨hl, hp⟩ := hword hw3
        refine ⟨hl, ?_⟩
        show ls.position ≤ p2
        simpa using hp
      · intro hw2
        have hw3 : st ≠ LexSt.word := hw2
        have := hnw hw3
        constructor
        · show ls.position + 1 ≤ p2
          omega
        · omega
      · intro hc2
        have hc3 : st = LexSt.comment := hc2
        exact hci hc3
      · show p2 ≤ len2 + ls.position + sumRuns [(u2, styleDefault)]
        rw [sumRuns_single]
        omega
  · rename_i u2 p2 doc f2 h2 ci2 heq
    rw [heq] at hs
    simp only [UnkSpec] at hs
    refine ⟨rfl, rfl, ?_, ?_⟩
    · intro hd
      refine ⟨rfl, ?_, ?_⟩
      · show ls.endPos + 1 ≤ ls.position +
          sumRuns [(u2, styleDefault),
            (ls.endPos + 1 - p2, if doc then styleCommentDoc else styleComment)]
        rw [sumRuns_pair]
        omega
      · intro he
        simp at he
    · intro hd
      simp at hd

theorem processWhitespace_spec (cfg : Cfg) (buf : Buffer) (ls : LexerState) (ci : Int) :
    (processWhitespace cfg buf ls ci).ls.endPos = ls.endPos ∧
      (processWhitespace cfg buf ls ci).ls.line = ls.line ∧
      (processWhitespace cfg buf ls ci).commentIdx = ci ∧
      (processWhitespace cfg buf ls ci).early = false ∧
      (processWhitespace cfg buf ls ci).clearNext = (processWhitespace cfg buf ls ci).done ∧
      (∀ x ∈ (processWhitespace cfg buf ls ci).runs, x.2 = styleDefault) ∧
      ((processWhitespace cfg buf ls ci).done = true →
        (processWhitespace cfg buf ls ci).ls.state = ls.state ∧
          ls.endPos + 1 + ls.length ≤ ls.position + sumRuns (processWhitespace cfg buf ls ci).runs) ∧
      ((processWhitespace cfg buf ls ci).done = false →
        (processWhitespace cfg buf ls ci).ls.state = .unknown ∧
          ls.length + (processWhitespace cfg buf ls ci).ls.position ≤
            ls.position + sumRuns (processWhitespace cfg buf ls ci).runs ∧
          ls.position ≤ (processWhitespace cfg buf ls ci).ls.position) := by
  obtain ⟨l1, l2, l3, l4⟩ := classRunLoop_spec cfg.whitespaceChars buf
    (ls.endPos + 1 - ls.position) ls.position ls.length _ rfl
  exact packRun_spec _ styleDefault ls ci l1 l2 (fun hh => by have := l3 hh; omega)

theorem processOperator_spec (cfg : Cfg) (buf : Buffer) (ls : LexerState) (ci : Int) :
    (processOperator cfg buf ls ci).ls.endPos = ls.endPos ∧
      (processOperator cfg buf ls ci).ls.line = ls.line ∧
      (processOperator cfg buf ls ci).commentIdx = ci ∧
      (processOperator cfg buf ls ci).early = false ∧
      (processOperator cfg buf ls ci).clearNext = (processOperator cfg buf ls ci).done ∧
      (∀ x ∈ (processOperator cfg buf ls ci).runs, x.2 = styleOperator) ∧
      ((processOperator cfg buf ls ci).done = true →
        (processOperator cfg buf ls ci).ls.state = ls.state ∧
          ls.endPos + 1 + ls.length ≤ ls.position + sumRuns (processOperator cfg buf ls ci).runs) ∧
      ((processOperator cfg buf ls ci).done = false →
        (processOperator cfg buf ls ci).ls.state = .unknown ∧
          ls.length + (processOperator cfg buf ls ci).ls.position ≤
            ls.position + sumRuns (processOperator cfg buf ls ci).runs ∧
          ls.position ≤ (processOperator cfg buf ls ci).ls.position) := by
  obtain ⟨l1, l2, l3, l4⟩ := classRunLoop_spec cfg.operatorChars buf
    (ls.endPos + 1 - ls.position) ls.position ls.length _ rfl
  exact packRun_spec _ styleOperator ls ci l1 l2 (fun hh => by have := l3 hh; omega)

theorem processString_spec (cfg : Cfg) (buf : Buffer) (ls : LexerState) (ci : Int) :
    (processString cfg buf ls ci).ls.endPos = ls.endPos ∧
      (processString cfg buf ls ci).ls.line = ls.line ∧
      (processString cfg buf ls ci).commentIdx = ci ∧
      (processString cfg buf ls ci).early = false ∧
      (processString cfg buf ls ci).clearNext = (processString cfg buf ls ci).done ∧
      (∀ x ∈ (processString cfg buf ls ci).runs, x.2 = styleString) ∧
      ((processString cfg buf ls ci).done = true →
        (processString cfg buf ls ci).ls.state = ls.state ∧
          ls.endPos + 1 + ls.length ≤ ls.position + sumRuns (processString cfg buf ls ci).runs) ∧
      ((processString cfg buf ls ci).done = false →
        (processString cfg buf ls ci).ls.state = .unknown ∧
          ls.length + (processString cfg buf ls ci).ls.position ≤
            ls.position + sumRuns (processString cfg buf ls ci).runs ∧
          ls.position ≤ (processString cfg buf ls ci).ls.position) := by
  obtain ⟨l1, l2, l3, l4⟩ := quoteRunLoop_spec quoteChar buf
    (ls.endPos + 1 - ls.position) ls.position ls.length _ rfl
  exact packRun_spec _ styleString ls ci l1 l2 (fun hh => by have := l3 hh; omega)

theorem processChar_spec (cfg : Cfg) (buf : Buffer) (ls : LexerState) (ci : Int) :
    (processChar cfg buf ls ci).ls.endPos = ls.endPos ∧
      (processChar cfg buf ls ci).ls.line = ls.line ∧
      (processChar cfg buf ls ci).commentIdx = ci ∧
      (processChar cfg buf ls ci).early = false ∧
      (processChar cfg buf ls ci).clearNext = (processChar cfg buf ls ci).done ∧
      (∀ x ∈ (processChar cfg buf ls ci).runs, x.2 = styleChar) ∧
      ((processChar cfg buf ls ci).done = true →
        (processChar cfg buf ls ci).ls.state = ls.state ∧
          ls.endPos + 1 + ls.length ≤ ls.position + sumRuns (processChar cfg buf ls ci).runs) ∧
      ((processChar cfg buf ls ci).done = false →
        (processChar cfg buf ls ci).ls.state = .unknown ∧
          ls.length + (processChar cfg buf ls ci).ls.position ≤
            ls.position + sumRuns (processChar cfg buf ls ci).runs ∧
          ls.position ≤ (processChar cfg buf ls ci).ls.position) := by
  obtain ⟨l1, l2, l3, l4⟩ := quoteRunLoop_spec squoteChar buf
    (ls.endPos + 1 - ls.position) ls.position ls.length _ rfl
  exact packRun_spec _ styleChar ls ci l1 l2 (fun hh => by have := l3 hh; omega)


/-! ### Dispatch-step lemmas -/

theorem stepFor_frame (cfg : Cfg) (buf : Buffer) (ls : LexerState) (ci : Int) :
    (stepFor cfg buf ls ci).ls.endPos = ls.endPos ∧
      (stepFor cfg buf ls ci).ls.line = ls.line := by
  cases hst : ls.state <;> simp only [stepFor, hst]
  case unknown =>
    exact ⟨(processUnknown_spec cfg buf ls ci).1, (processUnknown_spec cfg buf ls ci).2.1⟩
  case whitespace =>
    exact ⟨(processWhitespace_spec cfg buf ls ci).1, (processWhitespace_spec cfg buf ls ci).2.1⟩
  case comment =>
    exact ⟨(processComment_spec cfg buf ls ci).1, (processComment_spec cfg buf ls ci).2.1⟩
  case str =>
    exact ⟨(processString_spec cfg buf ls ci).1, (processString_spec cfg buf ls ci).2.1⟩
  case chr =>
    exact ⟨(processChar_spec cfg buf ls ci).1, (processChar_spec cfg buf ls ci).2.1⟩
  case word =>
    exact ⟨(processWord_spec cfg buf ls ci).1, (processWord_spec cfg buf ls ci).2.1⟩
  case op =>
    exact ⟨(processOperator_spec cfg buf ls ci).1, (processOperator_spec cfg buf ls ci).2.1⟩

theorem stepFor_progress (cfg : Cfg) (buf : Buffer) (ls : LexerState) (ci : Int)
    (hd : (stepFor cfg buf ls ci).done = false) :
    measureLs (stepFor cfg buf ls ci).ls < measureLs ls := by
  cases hst : ls.state <;> simp only [stepFor, hst] at hd ⊢
  case unknown =>
    obtain ⟨u1, u2, u3, u4⟩ := processUnknown_spec cfg buf ls ci
    obtain ⟨w1, w2, w3, w4, w5, w6, w7⟩ := u4 hd
    rcases hst2 : (processUnknown cfg buf ls ci).ls.state
    case unknown => exact absurd hst2 w3
    case word =>
      obtain ⟨hl, hp⟩ := w4 hst2
      simp only [measureLs, u1, hst2, hst, rankSt]
      omega
    all_goals
      obtain ⟨hp1, hp2⟩ := w5 (by rw [hst2]; simp)
    all_goals simp only [measureLs, u1, hst2, hst, rankSt]
    all_goals omega
  case whitespace =>
    obtain ⟨e1, e2, e3, e4, e5, e6, e7, e8⟩ := processWhitespace_spec cfg buf ls ci
    obtain ⟨g1, g2, g3⟩ := e8 hd
    simp only [measureLs, e1, g1, hst, rankSt]
    omega
  case comment =>
    obtain ⟨c1, c2, c3, c4, c5, c6⟩ := processComment_spec cfg buf ls ci
    obtain ⟨g1, g2, g3⟩ := c6 hd
    simp only [measureLs, c1, g1, hst, rankSt]
    omega
  case str =>
    obtain ⟨e1, e2, e3, e4, e5, e6, e7, e8⟩ := processString_spec cfg buf ls ci
    obtain ⟨g1, g2, g3⟩ := e8 hd
    simp only [measureLs, e1, g1, hst, rankSt]
    omega
  case chr =>
    obtain ⟨e1, e2, e3, e4, e5, e6, e7, e8⟩ := processChar_spec cfg buf ls ci
    obtain ⟨g1, g2, g3⟩ := e8 hd
    simp only [measureLs, e1, g1, hst, rankSt]
    omega
  case word =>
    obtain ⟨e1, e2, e3, e4, e5, e6, e7⟩ := processWord_spec cfg buf ls ci
    obtain ⟨g1, g2, g3, g4⟩ := e7 hd
    simp only [measureLs, e1, g1, hst, rankSt]
    omega
  case op =>
    obtain ⟨e1, e2, e3, e4, e5, e6, e7, e8⟩ := processOperator_spec cfg buf ls ci
    obtain ⟨g1, g2, g3⟩ := e8 hd
    simp only [measureLs, e1, g1, hst, rankSt]
    omega

theorem stepFor_done_account (cfg : Cfg) (buf : Buffer) (ls : LexerState) (ci : Int)
    (hd : (stepFor cfg buf ls ci).done = true) :
    ls.endPos + 1 + pendOf ls ≤ ls.position + sumRuns (stepFor cfg buf ls ci).runs := by
  cases hst : ls.state <;> simp only [stepFor, hst] at hd ⊢
  case unknown =>
    have hpls : pendOf ls = 0 := by simp [pendOf, hst]
    rw [hpls]
    have := ((processUnknown_spec cfg buf ls ci).2.2.1 hd).2.1
    omega
  case whitespace =>
    have hpls : pendOf ls = ls.length := by simp [pendOf, hst]
    rw [hpls]
    exact ((processWhitespace_spec cfg buf ls ci).2.2.2.2.2.2.1 hd).2
  case comment =>
    have hpls : pendOf ls = ls.length := by simp [pendOf, hst]
    rw [hpls]
    exact ((processComment_spec cfg buf ls ci).2.2.2.2.1 hd).2.2
  case str =>
    have hpls : pendOf ls = ls.length := by simp [pendOf, hst]
    rw [hpls]
    exact ((processString_spec cfg buf ls ci).2.2.2.2.2.2.1 hd).2
  case chr =>
    have hpls : pendOf ls = ls.length := by simp [pendOf, hst]
    rw [hpls]
    exact ((processChar_spec cfg buf ls ci).2.2.2.2.2.2.1 hd).2
  case word =>
    have hpls : pendOf ls = 0 := by simp [pendOf, hst]
    rw [hpls]
    have := ((processWord_spec cfg buf ls ci).2.2.2.2.2.1 hd).2
    omega
  case op =>
    have hpls : pendOf ls = ls.length := by simp [pendOf, hst]
    rw [hpls]
    exact ((processOperator_spec cfg buf ls ci).2.2.2.2.2.2.1 hd).2

theorem stepFor_cont_account (cfg : Cfg) (buf : Buffer) (ls : LexerState) (ci : Int)
    (hd : (stepFor cfg buf ls ci).done = false) :
    pendOf ls + (stepFor cfg buf ls ci).ls.position ≤
      pendOf (stepFor cfg buf ls ci).ls + ls.position + sumRuns (stepFor cfg buf ls ci).runs := by
  cases hst : ls.state <;> simp only [stepFor, hst] at hd ⊢
  case unknown =>
    obtain ⟨u1, u2, u3, u4⟩ := processUnknown_spec cfg buf ls ci
    obtain ⟨w1, w2, w3, w4, w5, w6, w7⟩ := u4 hd
    have hpls : pendOf ls = 0 := by simp [pendOf, hst]
    have hp := pendOf_eq_length _ (fun hw => (w4 hw).1) w3
    rw [hpls, hp]
    omega
  case whitespace =>
    obtain ⟨e1, e2, e3, e4, e5, e6, e7, e8⟩ := processWhitespace_spec cfg buf ls ci
    obtain ⟨g1, g2, g3⟩ := e8 hd
    have hpls : pendOf ls = ls.length := by simp [pendOf, hst]
    have hpr : pendOf (processWhitespace cfg buf ls ci).ls = 0 := by simp [pendOf, g1]
    rw [hpls, hpr]
    omega
  case comment =>
    obtain ⟨c1, c2, c3, c4, c5, c6⟩ := processComment_spec cfg buf ls ci
    obtain ⟨g1, g2, g3⟩ := c6 hd
    have hpls : pendOf ls = ls.length := by simp [pendOf, hst]
    have hpr : pendOf (processComment cfg buf ls ci).ls = 0 := by simp [pendOf, g1]
    rw [hpls, hpr]
    omega
  case str =>
    obtain ⟨e1, e2, e3, e4, e5, e6, e7, e8⟩ := processString_spec cfg buf ls ci
    obtain ⟨g1, g2, g3⟩ := e8 hd
    have hpls : pendOf ls = ls.length := by simp [pendOf, hst]
    have hpr : pendOf (processString cfg buf ls ci).ls = 0 := by simp [pendOf, g1]
    rw [hpls, hpr]
    omega
  case chr =>
    obtain ⟨e1, e2, e3, e4, e5, e6, e7, e8⟩ := processChar_spec cfg buf ls ci
    obtain ⟨g1, g2, g3⟩ := e8 hd
    have hpls : pendOf ls = ls.length := by simp [pendOf, hst]
    have hpr : pendOf (processChar cfg buf ls ci).ls = 0 := by simp [pendOf, g1]
    rw [hpls, hpr]
    omega
  case word =>
    obtain ⟨e1, e2, e3, e4, e5, e6, e7⟩ := processWord_spec cfg buf ls ci
    obtain ⟨g1, g2, g3, g4⟩ := e7 hd
    have hpls : pendOf ls = 0 := by simp [pendOf, hst]
    have hpr : pendOf (processWord cfg buf ls ci).ls = 0 := by simp [pendOf, g1]
    rw [hpls, hpr]
    omega
  case op =>
    obtain ⟨e1, e2, e3, e4, e5, e6, e7, e8⟩ := processOperator_spec cfg buf ls ci
    obtain ⟨g1, g2, g3⟩ := e8 hd
    have hpls : pendOf ls = ls.length := by simp [pendOf, hst]
    have hpr : pendOf (processOperator cfg buf ls ci).ls = 0 := by simp [pendOf, g1]
    rw [hpls, hpr]
    omega

theorem stepFor_done_cases (cfg : Cfg) (buf : Buffer) (ls : LexerState) (ci : Int)
    (hd : (stepFor cfg buf ls ci).done = true) :
    (stepFor cfg buf ls ci).clearNext = true ∨ (stepFor cfg buf ls ci).early = true ∨
      (stepFor cfg buf ls ci).ls.state = .comment := by
  cases hst : ls.state <;> simp only [stepFor, hst] at hd ⊢
  case unknown =>
    by_cases he : (processUnknown cfg buf ls ci).early = true
    · exact Or.inr (Or.inl he)
    · have he2 : (processUnknown cfg buf ls ci).early = false := by simpa using he
      exact Or.inl (((processUnknown_spec cfg buf ls ci).2.2.1 hd).2.2 he2)
  case whitespace =>
    exact Or.inl (((processWhitespace_spec cfg buf ls ci).2.2.2.2.1).trans hd)
  case comment =>
    exact Or.inr (Or.inr ((((processComment_spec cfg buf ls ci).2.2.2.2.1 hd).1).trans hst))
  case str =>
    exact Or.inl (((processString_spec cfg buf ls ci).2.2.2.2.1).trans hd)
  case chr =>
    exact Or.inl (((processChar_spec cfg buf ls ci).2.2.2.2.1).trans hd)
  case word =>
    exact Or.inl (((processWord_spec cfg buf ls ci).2.2.2.2.1).trans hd)
  case op =>
    exact Or.inl (((processOperator_spec cfg buf ls ci).2.2.2.2.1).trans hd)

theorem stepFor_ci (cfg : Cfg) (buf : Buffer) (ls : LexerState) (ci : Int)
    (hinv : ls.state = .comment → 0 ≤ ci)
    (hc : (stepFor cfg buf ls ci).ls.state = .comment) :
    0 ≤ (stepFor cfg buf ls ci).commentIdx := by
  cases hst : ls.state <;> simp only [stepFor, hst] at hc ⊢
  case unknown =>
    obtain ⟨u1, u2, u3, u4⟩ := processUnknown_spec cfg buf ls ci
    rcases hb : (processUnknown cfg buf ls ci).done
    · exact ((u4 hb).2.2.2.2.2.1) hc
    · have := (u3 hb).1
      rw [this, hst] at hc
      simp at hc
  case whitespace =>
    obtain ⟨e1, e2, e3, e4, e5, e6, e7, e8⟩ := processWhitespace_spec cfg buf ls ci
    rcases hb : (processWhitespace cfg buf ls ci).done
    · rw [(e8 hb).1] at hc
      simp at hc
    · rw [(e7 hb).1, hst] at hc
      simp at hc
  case comment =>
    obtain ⟨c1, c2, c3, c4, c5, c6⟩ := processComment_spec cfg buf ls ci
    rcases hb : (processComment cfg buf ls ci).done
    · rw [(c6 hb).1] at hc
      simp at hc
    · rw [(c5 hb).2.1]
      exact hinv hst
  case str =>
    obtain ⟨e1, e2, e3, e4, e5, e6, e7, e8⟩ := processString_spec cfg buf ls ci
    rcases hb : (processString cfg buf ls ci).done
    · rw [(e8 hb).1] at hc
      simp at hc
    · rw [(e7 hb).1, hst] at hc
      simp at hc
  case chr =>
    obtain ⟨e1, e2, e3, e4, e5, e6, e7, e8⟩ := processChar_spec cfg buf ls ci
    rcases hb : (processChar cfg buf ls ci).done
    · rw [(e8 hb).1] at hc
      simp at hc
    · rw [(e7 hb).1, hst] at hc
      simp at hc
  case word =>
    obtain ⟨e1, e2, e3, e4, e5, e6, e7⟩ := processWord_spec cfg buf ls ci
    rcases hb : (processWord cfg buf ls ci).done
    · rw [(e7 hb).1] at hc
      simp at hc
    · rw [(e6 hb).1, hst] at hc
      simp at hc
  case op =>
    obtain ⟨e1, e2, e3, e4, e5, e6, e7, e8⟩ := processOperator_spec cfg buf ls ci
    rcases hb : (processOperator cfg buf ls ci).done
    · rw [(e8 hb).1] at hc
      simp at hc
    · rw [(e7 hb).1, hst] at hc
      simp at hc

/-! ### Dispatch-loop lemmas -/

theorem runMachineF_covers (cfg : Cfg) (buf : Buffer) :
    ∀ (fuel : Nat) (ls : LexerState) (ci : Int), measureLs ls < fuel →
      ls.endPos + 1 + pendOf ls ≤
        ls.position + sumRuns (runMachineF cfg buf fuel ls ci).runs := by
  intro fuel
  induction fuel with
  | zero =>
    intro ls ci h
    omega
  | succ fuel ih =>
    intro ls ci h
    simp only [runMachineF]
    split
    · rename_i hdone
      exact stepFor_done_account cfg buf ls ci hdone
    · rename_i hdone
      have hdf : (stepFor cfg buf ls ci).done = false := by simpa using hdone
      show ls.endPos + 1 + pendOf ls ≤ ls.position +
        sumRuns ((stepFor cfg buf ls ci).runs ++
          (runMachineF cfg buf fuel (stepFor cfg buf ls ci).ls
            (stepFor cfg buf ls ci).commentIdx).runs)
      rw [sumRuns_append]
      have hprog := stepFor_progress cfg buf ls ci hdf
      have hih := ih (stepFor cfg buf ls ci).ls (stepFor cfg buf ls ci).commentIdx (by omega)
      have hacc := stepFor_cont_account cfg buf ls ci hdf
      have hframe := (stepFor_frame cfg buf ls ci).1
      rw [hframe] at hih
      omega

theorem runMachineF_final (cfg : Cfg) (buf : Buffer) :
    ∀ (fuel : Nat) (ls : LexerState) (ci : Int), measureLs ls < fuel →
      (runMachineF cfg buf fuel ls ci).clearNext = true ∨
        (runMachineF cfg buf fuel ls ci).early = true ∨
        (runMachineF cfg buf fuel ls ci).ls.state = .comment := by
  intro fuel
  induction fuel with
  | zero =>
    intro ls ci h
    omega
  | succ fuel ih =>
    intro ls ci h
    simp only [runMachineF]
    split
    · rename_i hdone
      exact stepFor_done_cases cfg buf ls ci hdone
    · rename_i hdone
      have hdf : (stepFor cfg buf ls ci).done = false := by simpa using hdone
      have hprog := stepFor_progress cfg buf ls ci hdf
      exact ih (stepFor cfg buf ls ci).ls (stepFor cfg buf ls ci).commentIdx (by omega)

theorem runMachineF_ci (cfg : Cfg) (buf : Buffer) :
    ∀ (fuel : Nat) (ls : LexerState) (ci : Int), measureLs ls < fuel →
      (ls.state = .comment → 0 ≤ ci) →
      (runMachineF cfg buf fuel ls ci).ls.state = .comment →
      0 ≤ (runMachineF cfg buf fuel ls ci).commentIdx := by
  intro fuel
  induction fuel with
  | zero =>
    intro ls ci h
    omega
  | succ fuel ih =>
    intro ls ci h hinv
    simp only [runMachineF]
    split
    · rename_i hdone
      exact stepFor_ci cfg buf ls ci hinv
    · rename_i hdone
      have hdf : (stepFor cfg buf ls ci).done = false := by simpa using hdone
      have hprog := stepFor_progress cfg buf ls ci hdf
      exact ih (stepFor cfg buf ls ci).ls (stepFor cfg buf ls ci).commentIdx (by omega)
        (fun hc => stepFor_ci cfg buf ls ci hinv hc)

/-! ### Line-table update lemmas -/

theorem setLine_same (lines : Lines) (n : Nat) (v : LineInfo) : setLine lines n v n = v := by
  simp [setLine]

theorem setLine_other (lines : Lines) (n : Nat) (v : LineInfo) (m : Nat) (h : m ≠ n) :
    setLine lines n v m = lines m := by
  simp [setLine, h]

theorem applyLineUpdates_at_line (r : RunRes) (lines : Lines) (line : Nat) :
    applyLineUpdates r lines line line =
      { commentIdx := if r.ls.state = .whitespace then -1 else (lines line).commentIdx
        foldIncrement := r.ls.foldIncrement
        hasWord := r.ls.hasWord } := by
  by_cases hc : r.ls.state = .comment
  · by_cases hcl : r.clearNext = true <;> simp [applyLineUpdates, setLine, hc, hcl]
  · by_cases hws : r.ls.state = .whitespace
    · by_cases hcl : r.clearNext = true <;> simp [applyLineUpdates, setLine, hc, hws, hcl]
    · by_cases hcl : r.clearNext = true <;> simp [applyLineUpdates, setLine, hc, hws, hcl]

theorem applyLineUpdates_at_next (r : RunRes) (lines : Lines) (line : Nat) :
    applyLineUpdates r lines line (line + 1) =
      { commentIdx :=
          if r.ls.state = .comment then r.commentIdx
          else if r.ls.state = .whitespace then -1
          else if r.clearNext = true then -1 else (lines (line + 1)).commentIdx
        foldIncrement := (lines (line + 1)).foldIncrement
        hasWord := (lines (line + 1)).hasWord } := by
  by_cases hc : r.ls.state = .comment
  · by_cases hcl : r.clearNext = true <;> simp [applyLineUpdates, setLine, hc, hcl]
  · by_cases hws : r.ls.state = .whitespace
    · by_cases hcl : r.clearNext = true <;> simp [applyLineUpdates, setLine, hc, hws, hcl]
    · by_cases hcl : r.clearNext = true <;> simp [applyLineUpdates, setLine, hc, hws, hcl]

theorem applyLineUpdates_at_other (r : RunRes) (lines : Lines) (line m : Nat)
    (h1 : m ≠ line) (h2 : m ≠ line + 1) :
    applyLineUpdates r lines line m = lines m := by
  by_cases hc : r.ls.state = .comment
  · by_cases hcl : r.clearNext = true <;> simp [applyLineUpdates, setLine, hc, hcl, h1, h2]
  · by_cases hws : r.ls.state = .whitespace
    · by_cases hcl : r.clearNext = true <;>
        simp [applyLineUpdates, setLine, hc, hws, hcl, h1, h2]
    · by_cases hcl : r.clearNext = true <;>
        simp [applyLineUpdates, setLine, hc, hws, hcl, h1, h2]

theorem applyLineUpdates_idem (r : RunRes) (lines : Lines) (line : Nat) :
    applyLineUpdates r (applyLineUpdates r lines line) line =
      applyLineUpdates r lines line := by
  funext m
  by_cases h1 : m = line
  · subst h1
    rw [applyLineUpdates_at_line, applyLineUpdates_at_line]
    by_cases hws : r.ls.state = .whitespace <;> simp [hws]
  · by_cases h2 : m = line + 1
    · subst h2
      rw [applyLineUpdates_at_next, applyLineUpdates_at_next]
      by_cases hc : r.ls.state = .comment <;> by_cases hws : r.ls.state = .whitespace <;>
        by_cases hcl : r.clearNext = true <;> simp [hc, hws, hcl]
    · rw [applyLineUpdates_at_other _ _ _ _ h1 h2, applyLineUpdates_at_other _ _ _ _ h1 h2]

/-! ### Fold-level lemmas -/

theorem nat_le_lor (a b : Nat) : a ≤ a ||| b := by
  have h : (a ||| b) &&& a = a := by
    apply Nat.eq_of_testBit_eq
    intro i
    rw [Nat.testBit_and, Nat.testBit_lor]
    cases a.testBit i <;> simp
  calc a = (a ||| b) &&& a := h.symm
    _ ≤ a ||| b := Nat.and_le_left

theorem updateFoldingGo_ge_base (lines : Lines) :
    ∀ (count l lev : Nat), foldLevelBase ≤ lev →
      ∀ p ∈ updateFoldingGo lines l count lev, foldLevelBase ≤ p.2 := by
  intro count
  induction count with
  | zero =>
    intro l lev hlev p hp
    simp [updateFoldingGo] at hp
  | succ count ih =>
    intro l lev hlev p hp
    simp only [updateFoldingGo, List.mem_append] at hp
    have hnext : foldLevelBase ≤
        (if ((lev : Int) + (lines l).foldIncrement) < (foldLevelBase : Int) then foldLevelBase
         else ((lev : Int) + (lines l).foldIncrement).toNat) := by
      split
      · exact Nat.le_refl _
      · rename_i hge
        omega
    rcases hp with hp | hp
    · have hflag : foldLevelBase ≤ lev ||| foldLevelHeaderFlag :=
        Nat.le_trans hlev (nat_le_lor lev foldLevelHeaderFlag)
      split at hp <;> (try split at hp) <;> (try split at hp)
      all_goals simp only [List.mem_cons, List.mem_singleton, List.not_mem_nil,
        or_false] at hp
      all_goals first
        | (rcases hp with rfl | rfl)
        | subst hp
      all_goals first
        | exact hflag
        | exact hlev
        | exact Nat.le_refl _
        | (show foldLevelBase ≤ ((lev : Int) + (lines l).foldIncrement).toNat
           omega)
    · exact ih (l + 1) _ hnext p hp

/-- The fold level that updateFolding computes for the line k steps
after the starting line, as a closed recurrence from the base level. -/
def foldLevelSeq (lines : Lines) (l0 base : Nat) : Nat → Nat
  | 0 => base
  | k + 1 =>
    let cur := foldLevelSeq lines l0 base k
    let nl : Int := (cur : Int) + (lines (l0 + k)).foldIncrement
    if nl < (foldLevelBase : Int) then foldLevelBase else nl.toNat

/-- The SetFoldLevel calls emitted for one line, given the current and
next computed levels: on a level increase the header flag goes to the
previous line when the line has no word-bearing token, and to the line
itself otherwise. -/
def foldEntriesFor (lines : Lines) (l cur next : Nat) : List (Int × Nat) :=
  if cur < next then
    if (lines l).hasWord = false then
      [((l : Int) - 1, cur ||| foldLevelHeaderFlag), ((l : Int), next)]
    else [((l : Int), cur ||| foldLevelHeaderFlag)]
  else [((l : Int), cur)]

theorem foldLevelSeq_shift (lines : Lines) (l0 base : Nat) :
    ∀ k, foldLevelSeq lines (l0 + 1) (foldLevelSeq lines l0 base 1) k =
      foldLevelSeq lines l0 base (k + 1) := by
  intro k
  induction k with
  | zero => rfl
  | succ k ih =>
    have h1 : foldLevelSeq lines (l0 + 1) (foldLevelSeq lines l0 base 1) (k + 1) =
        (if ((foldLevelSeq lines (l0 + 1) (foldLevelSeq lines l0 base 1) k : Int) +
              (lines (l0 + 1 + k)).foldIncrement) < (foldLevelBase : Int) then foldLevelBase
         else ((foldLevelSeq lines (l0 + 1) (foldLevelSeq lines l0 base 1) k : Int) +
              (lines (l0 + 1 + k)).foldIncrement).toNat) := rfl
    have h2 : foldLevelSeq lines l0 base (k + 1 + 1) =
        (if ((foldLevelSeq lines l0 base (k + 1) : Int) +
              (lines (l0 + (k + 1))).foldIncrement) < (foldLevelBase : Int) then foldLevelBase
         else ((foldLevelSeq lines l0 base (k + 1) : Int) +
              (lines (l0 + (k + 1))).foldIncrement).toNat) := rfl
    rw [h1, ih, h2]
    have harith : l0 + 1 + k = l0 + (k + 1) := by omega
    rw [harith]

theorem updateFoldingGo_eq_flatMap (lines : Lines) :
    ∀ (count l0 base : Nat),
      updateFoldingGo lines l0 count base =
        (List.range count).flatMap
          (fun k => foldEntriesFor lines (l0 + k) (foldLevelSeq lines l0 base k)
            (foldLevelSeq lines l0 base (k + 1))) := by
  intro count
  induction count with
  | zero => intro l0 base; rfl
  | succ count ih =>
    intro l0 base
    have hnl : updateFoldingGo lines l0 (count + 1) base =
        foldEntriesFor lines l0 base (foldLevelSeq lines l0 base 1) ++
          updateFoldingGo lines (l0 + 1) count (foldLevelSeq lines l0 base 1) := rfl
    rw [hnl, ih (l0 + 1) (foldLevelSeq lines l0 base 1)]
    rw [List.range_succ_eq_map, List.flatMap_cons, List.flatMap_map]
    congr 1
    congr 1
    funext k
    rw [foldLevelSeq_shift lines l0 base k, foldLevelSeq_shift lines l0 base (k + 1)]
    have harith : l0 + 1 + k = l0 + Nat.succ k := by omega
    rw [harith]

/-! ### Comment-continuation helpers -/

theorem commentRunLoop_match (tok : List Char) (buf : Buffer) :
    ∀ (k pos len : Nat) (r : LoopOut), commentRunLoop tok buf k pos len = r →
      (r.hitEnd = true → r.len = len + k ∧
        ∀ j, pos ≤ j → j < pos + k → checkToken buf j tok = false) ∧
      (r.hitEnd = false → ∃ m, pos ≤ m ∧ m < pos + k ∧ checkToken buf m tok = true ∧
        r.len = len + (m - pos) + tok.length ∧
        ∀ j, pos ≤ j → j < m → checkToken buf j tok = false) := by
  intro k
  induction k with
  | zero =>
    intro pos len r h
    simp only [commentRunLoop] at h
    subst h
    constructor
    · intro _
      exact ⟨rfl, fun j hj1 hj2 => by omega⟩
    · intro hf
      simp at hf
  | succ k ih =>
    intro pos len r h
    simp only [commentRunLoop] at h
    by_cases hc : checkToken buf pos tok = true
    · rw [if_pos hc] at h
      subst h
      constructor
      · intro hf
        simp at hf
      · intro _
        refine ⟨pos, Nat.le_refl _, by omega, hc, ?_, fun j hj1 hj2 => by omega⟩
        show len + tok.length = len + (pos - pos) + tok.length
        omega
    · rw [if_neg hc] at h
      obtain ⟨h1, h2⟩ := ih (pos + 1) (len + 1) r h
      have hcf : checkToken buf pos tok = false := by simpa using hc
      constructor
      · intro he
        obtain ⟨ha, hb⟩ := h1 he
        refine ⟨by omega, ?_⟩
        intro j hj1 hj2
        by_cases hj : j = pos
        · subst hj
          exact hcf
        · exact hb j (by omega) (by omega)
      · intro he
        obtain ⟨m, hm1, hm2, hm3, hm4, hm5⟩ := h2 he
        refine ⟨m, by omega, by omega, hm3, by omega, ?_⟩
        intro j hj1 hj2
        by_cases hj : j = pos
        · subst hj
          exact hcf
        · exact hm5 j (by omega) (by omega)

theorem processComment_runs (cfg : Cfg) (buf : Buffer) (ls : LexerState) (ci : Int) :
    (processComment cfg buf ls ci).runs =
      [((commentRunLoop (if 0 ≤ ci then cfg.lang.commentEndL.getD ci.toNat [] else []) buf
          (ls.endPos + 1 - ls.position) ls.position ls.length).len, styleComment)] := by
  simp only [processComment, packComment]
  split <;> split <;> rfl

theorem runMachineF_head_comment (cfg : Cfg) (buf : Buffer) (fuel : Nat) (ls : LexerState)
    (ci : Int) (hst : ls.state = .comment) (hf : fuel ≠ 0) :
    ∃ rest, (runMachineF cfg buf fuel ls ci).runs =
      ((commentRunLoop (if 0 ≤ ci then cfg.lang.commentEndL.getD ci.toNat [] else []) buf
        (ls.endPos + 1 - ls.position) ls.position ls.length).len, styleComment) :: rest := by
  cases fuel with
  | zero => exact absurd rfl hf
  | succ fuel =>
    have hsf : stepFor cfg buf ls ci = processComment cfg buf ls ci := by
      simp [stepFor, hst]
    simp only [runMachineF, hsf]
    split
    · exact ⟨[], by rw [processComment_runs]⟩
    · refine ⟨(runMachineF cfg buf fuel (processComment cfg buf ls ci).ls
        (processComment cfg buf ls ci).commentIdx).runs, ?_⟩
      show (processComment cfg buf ls ci).runs ++ _ = _
      rw [processComment_runs]
      rfl

/-! ### No-language helpers -/

theorem unknownLoop_noLang (cfg : Cfg) (buf : Buffer) (hl : cfg.language = none) :
    ∀ (k pos u : Nat) (pp : Bool) (fold : Int) (hw : Bool) (ci : Int),
      (∃ u2 p2 f2 h2 c2, unknownLoop cfg buf k pos u pp fold hw ci = .reachEnd u2 p2 f2 h2 c2) ∨
      (∃ u2 p2 len2 f2 h2 c2,
        unknownLoop cfg buf k pos u pp fold hw ci = .trans u2 .str p2 len2 f2 h2 c2) := by
  intro k
  induction k with
  | zero =>
    intro pos u pp fold hw ci
    exact Or.inl ⟨u, pos, fold, hw, ci, rfl⟩
  | succ k ih =>
    intro pos u pp fold hw ci
    by_cases hq : getCharAt buf pos = quoteChar
    · right
      refine ⟨u, pos + 1, 1, fold, true, ci, ?_⟩
      simp only [unknownLoop, hl, if_pos hq]
    · have hrec : unknownLoop cfg buf (k + 1) pos u pp fold hw ci =
          unknownLoop cfg buf k (pos + 1) (u + 1) pp fold hw ci := by
        simp only [unknownLoop, hl, if_neg hq]
      rw [hrec]
      exact ih (pos + 1) (u + 1) pp fold hw ci

theorem processUnknown_noLang (cfg : Cfg) (buf : Buffer) (ls : LexerState) (ci : Int)
    (hl : cfg.language = none) :
    (∀ x ∈ (processUnknown cfg buf ls ci).runs, x.2 = styleDefault) ∧
      ((processUnknown cfg buf ls ci).done = false →
        (processUnknown cfg buf ls ci).ls.state = .str) := by
  rcases unknownLoop_noLang cfg buf hl (ls.endPos + 1 - ls.position) ls.position 0 false
      ls.foldIncrement ls.hasWord ci with
    ⟨u2, p2, f2, h2, c2, heq⟩ | ⟨u2, p2, len2, f2, h2, c2, heq⟩
  · constructor
    · intro x hx
      have hx2 : x = (u2, styleDefault) := by
        simpa [processUnknown, heq] using hx
      rw [hx2]
    · intro hd
      have : (processUnknown cfg buf ls ci).done = true := by
        simp [processUnknown, heq]
      rw [this] at hd
      simp at hd
  · constructor
    · intro x hx
      have hx2 : x = (u2, styleDefault) := by
        simpa [processUnknown, heq] using hx
      rw [hx2]
    · intro hd
      simp [processUnknown, heq]

theorem runMachineF_noLang (cfg : Cfg) (buf : Buffer) (hl : cfg.language = none) :
    ∀ (fuel : Nat) (ls : LexerState) (ci : Int), measureLs ls < fuel →
      ls.state = .unknown ∨ ls.state = .str →
      ∀ x ∈ (runMachineF cfg buf fuel ls ci).runs, x.2 = styleDefault ∨ x.2 = styleString := by
  intro fuel
  induction fuel with
  | zero =>
    intro ls ci h
    omega
  | succ fuel ih =>
    intro ls ci h hst x hx
    simp only [runMachineF] at hx
    rcases hst with hst | hst
    · have hsf : stepFor cfg buf ls ci = processUnknown cfg buf ls ci := by
        simp [stepFor, hst]
      rw [hsf] at hx
      split at hx
      · exact Or.inl ((processUnknown_noLang cfg buf ls ci hl).1 x hx)
      · rename_i hdone
        have hdf : (processUnknown cfg buf ls ci).done = false := by simpa using hdone
        rcases List.mem_append.mp hx with hx2 | hx2
        · exact Or.inl ((processUnknown_noLang cfg buf ls ci hl).1 x hx2)
        · have hprog : measureLs (processUnknown cfg buf ls ci).ls < measureLs ls := by
            have := stepFor_progress cfg buf ls ci (by rw [hsf]; exact hdf)
            rwa [hsf] at this
          exact ih (processUnknown cfg buf ls ci).ls
            (processUnknown cfg buf ls ci).commentIdx (by omega)
            (Or.inr ((processUnknown_noLang cfg buf ls ci hl).2 hdf)) x hx2
    · have hsf : stepFor cfg buf ls ci = processString cfg buf ls ci := by
        simp [stepFor, hst]
      obtain ⟨e1, e2, e3, e4, e5, e6, e7, e8⟩ := processString_spec cfg buf ls ci
      rw [hsf] at hx
      split at hx
      · exact Or.inr (e6 x hx)
      · rename_i hdone
        have hdf : (processString cfg buf ls ci).done = false := by simpa using hdone
        rcases List.mem_append.mp hx with hx2 | hx2
        · exact Or.inr (e6 x hx2)
        · have hprog : measureLs (processString cfg buf ls ci).ls < measureLs ls := by
            have := stepFor_progress cfg buf ls ci (by rw [hsf]; exact hdf)
            rwa [hsf] at this
          exact ih (processString cfg buf ls ci).ls
            (processString cfg buf ls ci).commentIdx (by omega)
            (Or.inl (e8 hdf).1) x hx2

/-! ### Word-table lemmas -/

theorem loadList_base_not_mem (cs : Bool) (ws : List (List Char)) :
    ∀ (acc : (List Char → Nat) × List (List Char)) (style : Nat) (x : List Char),
      x ∉ ws.map (fun w => if cs then w else lower w) →
      (loadList false cs acc ws style).1 x = acc.1 x := by
  induction ws with
  | nil => intro acc style x hx; rfl
  | cons w ws ih =>
    intro acc style x hx
    simp only [List.map_cons, List.mem_cons] at hx
    push_neg at hx
    have hstep : loadList false cs acc (w :: ws) style =
        loadList false cs (addWordBase cs acc.1 w style, acc.2) ws style := rfl
    rw [hstep, ih _ style x hx.2]
    simp only [addWordBase]
    rw [if_neg hx.1]

theorem loadList_base_mem (cs : Bool) (ws : List (List Char)) :
    ∀ (acc : (List Char → Nat) × List (List Char)) (style : Nat) (x : List Char),
      x ∈ ws.map (fun w => if cs then w else lower w) →
      (loadList false cs acc ws style).1 x = style := by
  induction ws with
  | nil => intro acc style x hx; simp at hx
  | cons w ws ih =>
    intro acc style x hx
    have hstep : loadList false cs acc (w :: ws) style =
        loadList false cs (addWordBase cs acc.1 w style, acc.2) ws style := rfl
    by_cases hmem : x ∈ ws.map (fun w => if cs then w else lower w)
    · rw [hstep, ih _ style x hmem]
    · simp only [List.map_cons, List.mem_cons] at hx
      rcases hx with hx | hx
      · rw [hstep, loadList_base_not_mem cs ws _ style x hmem]
        simp only [addWordBase]
        rw [if_pos hx]
      · exact absurd hx hmem

theorem loadList_z_no_fun (cs : Bool) (ws : List (List Char)) :
    ∀ (acc : (List Char → Nat) × List (List Char)) (style : Nat),
      (∀ x, acc.1 x ≠ styleFunction) →
      ∀ x, (loadList true cs acc ws style).1 x ≠ styleFunction := by
  induction ws with
  | nil => intro acc style h x; exact h x
  | cons w ws ih =>
    intro acc style h x
    have hstep : loadList true cs acc (w :: ws) style =
        loadList true cs (addWordZ cs acc.1 acc.2 w style) ws style := rfl
    rw [hstep]
    refine ih _ style ?_ x
    intro y
    simp only [addWordZ]
    split
    · exact h y
    · rename_i hsty
      simp only [addWordBase]
      by_cases hy : y = (if cs then w else lower w)
      · rw [if_pos hy]
        exact hsty
      · rw [if_neg hy]
        exact h y

theorem styleWordBase_no_fun (cfg : Cfg) (w : List Char)
    (h : ∀ x, cfg.wordList x ≠ styleFunction) :
    (styleWordBase cfg w).2 ≠ styleFunction := by
  simp only [styleWordBase, apply_ite Prod.snd]
  repeat' split
  all_goals first
    | exact h _
    | decide

theorem loadLanguage_z_no_fun (cfg : Cfg) (lang : Language) (hz : cfg.zscript = true) :
    ∀ x, (loadLanguage cfg (some lang)).wordList x ≠ styleFunction := by
  have h0 : ∀ x : List Char,
      ((fun _ : List Char => (0 : Nat)), ([] : List (List Char))).1 x ≠ styleFunction := by
    intro x
    simp [styleFunction]
  intro x
  simp only [loadLanguage, hz]
  exact loadList_z_no_fun _ _ _ _
    (loadList_z_no_fun _ _ _ _
      (loadList_z_no_fun _ _ _ _
        (loadList_z_no_fun _ _ _ _
          (loadList_z_no_fun _ _ _ _ h0)))) x

theorem loadLanguage_keyword_style (cfg : Cfg) (lang : Language) (hz : cfg.zscript = false)
    (w : List Char) (hk : w ∈ lang.keywords) :
    (loadLanguage cfg (some lang)).wordList
      (if lang.caseSensitive then w else lower w) = styleKeyword := by
  simp only [loadLanguage, hz]
  exact loadList_base_mem lang.caseSensitive lang.keywords _ styleKeyword _
    (List.mem_map_of_mem _ hk)

/-! ### doStyling-level lemmas -/

theorem pendOf_zero (ls : LexerState) (h : ls.length = 0) : pendOf ls = 0 := by
  cases hs : ls.state <;> simp [pendOf, hs, h]

theorem runMachine_covers (cfg : Cfg) (buf : Buffer) (ls : LexerState) (ci : Int) :
    ls.endPos + 1 + pendOf ls ≤ ls.position + sumRuns (runMachine cfg buf ls ci).runs :=
  runMachineF_covers cfg buf _ ls ci (Nat.lt_succ_self _)

theorem doStyling_covers (cfg : Cfg) (buf : Buffer) (lines : Lines) (s e line : Nat) :
    e + 1 ≤ s + sumRuns (doStyling cfg buf lines s e line).runs := by
  have h := runMachine_covers cfg buf
    ⟨s, e, line, if 0 ≤ (lines line).commentIdx then LexSt.comment else LexSt.unknown, 0, 0,
      false⟩
    (if 0 ≤ (lines line).commentIdx then (lines line).commentIdx else -1)
  rw [pendOf_zero _ rfl] at h
  have h3 : e + 1 + 0 ≤ s + sumRuns (runMachine cfg buf
      ⟨s, e, line, if 0 ≤ (lines line).commentIdx then LexSt.comment else LexSt.unknown, 0, 0,
        false⟩
      (if 0 ≤ (lines line).commentIdx then (lines line).commentIdx else -1)).runs := h
  have h2 : (doStyling cfg buf lines s e line).runs =
      (runMachine cfg buf
        ⟨s, e, line, if 0 ≤ (lines line).commentIdx then LexSt.comment else LexSt.unknown, 0, 0,
          false⟩
        (if 0 ≤ (lines line).commentIdx then (lines line).commentIdx else -1)).runs := rfl
  rw [h2]
  omega

theorem styleMachine_final (cfg : Cfg) (buf : Buffer) (lines : Lines) (s e line : Nat) :
    (styleMachine cfg buf lines s e line).clearNext = true ∨
      (styleMachine cfg buf lines s e line).early = true ∨
      (styleMachine cfg buf lines s e line).ls.state = .comment := by
  simp only [styleMachine, runMachine]
  exact runMachineF_final cfg buf _ _ _ (Nat.lt_succ_self _)

theorem styleMachine_ci (cfg : Cfg) (buf : Buffer) (lines : Lines) (s e line : Nat)
    (hc : (styleMachine cfg buf lines s e line).ls.state = .comment) :
    0 ≤ (styleMachine cfg buf lines s e line).commentIdx := by
  simp only [styleMachine, runMachine] at hc ⊢
  refine runMachineF_ci cfg buf _ _ _ (Nat.lt_succ_self _) ?_ hc
  intro hst
  by_cases hx : 0 ≤ (lines line).commentIdx
  · rw [if_pos hx]
    exact hx
  · have hst2 : (if 0 ≤ (lines line).commentIdx then LexSt.comment else LexSt.unknown) =
        LexSt.comment := hst
    rw [if_neg hx] at hst2
    simp at hst2

theorem processComment_done (cfg : Cfg) (buf : Buffer) (ls : LexerState) (ci : Int) :
    (processComment cfg buf ls ci).done =
      (commentRunLoop (if 0 ≤ ci then cfg.lang.commentEndL.getD ci.toNat [] else []) buf
        (ls.endPos + 1 - ls.position) ls.position ls.length).hitEnd := by
  simp only [processComment, packComment]
  split <;> split <;> rename_i hh <;> simp_all

theorem runMachine_first_done (cfg : Cfg) (buf : Buffer) (ls : LexerState) (ci : Int)
    (hd : (stepFor cfg buf ls ci).done = true) :
    runMachine cfg buf ls ci =
      ⟨(stepFor cfg buf ls ci).runs, (stepFor cfg buf ls ci).ls,
        (stepFor cfg buf ls ci).commentIdx, (stepFor cfg buf ls ci).clearNext,
        (stepFor cfg buf ls ci).early⟩ := by
  simp only [runMachine, runMachineF]
  rw [if_pos hd]

/-! ### Concrete fixtures -/

/-- A language with one block-comment delimiter pair and nothing else. -/
def langBlock : Language :=
  ⟨true, [], [], [], [], [], [['/', '*']], [['*', '/']], [], [], [], [], [], [], [], [], []⟩

/-- A language with one line-comment token and nothing else. -/
def langLine : Language :=
  ⟨true, [], [], [], [], [], [], [], [], [['/', '/']], [], [], [], [], [], [], []⟩

def cfgBlock : Cfg := loadLanguage baseCfg (some langBlock)

def cfgLine : Cfg := loadLanguage baseCfg (some langLine)

def linesInit : Lines := fun _ => LineInfo.initial

/-- The base configuration with the ZScript specialization enabled. -/
def baseCfgZ : Cfg :=
  { baseCfg with zscript := true }

/-- A language whose Function list holds the single token "foo". -/
def langFun : Language :=
  ⟨true, [], [], [['f', 'o', 'o']], [], [], [], [], [], [], [], [], [], [], [], [], []⟩

/-- A language whose Constant and Keyword lists share the token "if". -/
def langKW : Language :=
  ⟨true, [['i', 'f']], [], [], [], [['i', 'f']], [], [], [], [], [], [], [], [], [], [], []⟩

/-! ### Claims -/

/-- C1 (counterexample): the claim that the emitted style-run lengths of
doStyling(s, e) sum to exactly e - s + 1 fails when a multi-character
block-comment begin token matches straddling the range end: checkToken
reads past the range end, so for the buffer "/*" and the range [0, 0]
with block comment delimiters /* and */ the emitted runs are a
zero-length Default run followed by a two-character Comment run, whose
lengths sum to 2, not 1 (the claimed strictly positive increase of run
positions also fails, because of the zero-length run). -/
theorem claim_C1_counterexample :
    sumRuns (doStyling cfgBlock ['/', '*'] linesInit 0 0 0).runs ≠ 0 - 0 + 1 := by
  decide

/-- C1 (amended): for every call doStyling(editor, s, e) with s ≤ e the
emitted style runs are consecutive (each SetStyling continues where the
previous one ended, by the semantics of the style sink, so there are no
gaps and no overlaps) and their lengths sum to at least e - s + 1; the
sum exceeds e - s + 1 exactly when a comment delimiter token match
straddles the range end, and zero-length runs may be emitted. -/
theorem claim_C1_theorem (cfg : Cfg) (buf : Buffer) (lines : Lines) (s e line : Nat)
    (h : s ≤ e) :
    e + 1 ≤ s + sumRuns (doStyling cfg buf lines s e line).runs :=
  doStyling_covers cfg buf lines s e line

theorem claim_C1_witness :
    (0 : Nat) ≤ 1 ∧
      1 + 1 ≤ 0 + sumRuns (doStyling baseCfg ['a', 'b'] linesInit 0 1 0).runs :=
  ⟨by decide, claim_C1_theorem baseCfg ['a', 'b'] linesInit 0 1 0 (by decide)⟩

/-- C3 (counterexample): after a doStyling call that terminates through
the line-comment early return (final state not Comment), the stored
comment continuation of the following line is NOT cleared: with the
line-comment token "//", buffer "//a" and a stale continuation id 3
recorded for line 1, the id is still 3 after styling line 0. -/
theorem claim_C3_counterexample :
    (doStyling cfgLine ['/', '/', 'a']
        (fun n => if n = 1 then (⟨3, 0, false⟩ : LineInfo) else LineInfo.initial)
        0 2 0).finalState ≠ LexSt.comment ∧
      ((doStyling cfgLine ['/', '/', 'a']
        (fun n => if n = 1 then (⟨3, 0, false⟩ : LineInfo) else LineInfo.initial)
        0 2 0).lines 1).commentIdx = 3 := by
  decide

/-- C3 (amended): after every doStyling call whose final FSM state is
not Comment and which terminated by scanning past the range end (not
through the doc-comment or line-comment early return), the stored
LineState entry for the following line has its commentContinuationId
cleared to -1; when the call ends through a line-comment or doc-comment
styled to end of line, the following line's entry is left unchanged. -/
theorem claim_C3_theorem (cfg : Cfg) (buf : Buffer) (lines : Lines) (s e line : Nat)
    (h1 : (doStyling cfg buf lines s e line).finalState ≠ .comment)
    (h2 : (doStyling cfg buf lines s e line).early = false) :
    ((doStyling cfg buf lines s e line).lines (line + 1)).commentIdx = -1 := by
  have hM1 : (doStyling cfg buf lines s e line).finalState =
      (styleMachine cfg buf lines s e line).ls.state := rfl
  have hM2 : (doStyling cfg buf lines s e line).early =
      (styleMachine cfg buf lines s e line).early := rfl
  have hM3 : (doStyling cfg buf lines s e line).lines =
      applyLineUpdates (styleMachine cfg buf lines s e line) lines line := rfl
  rw [hM1] at h1
  rw [hM2] at h2
  rw [hM3, applyLineUpdates_at_next]
  rcases styleMachine_final cfg buf lines s e line with hcl | hea | hcm
  · by_cases hws : (styleMachine cfg buf lines s e line).ls.state = .whitespace <;>
      simp [if_neg h1, hws, hcl]
  · rw [h2] at hea
    simp at hea
  · exact absurd hcm h1

theorem claim_C3_witness :
    ((doStyling baseCfg ['a'] linesInit 0 0 0).finalState ≠ LexSt.comment ∧
      (doStyling baseCfg ['a'] linesInit 0 0 0).early = false) ∧
      ((doStyling baseCfg ['a'] linesInit 0 0 0).lines 1).commentIdx = -1 :=
  ⟨⟨by decide, by decide⟩, claim_C3_theorem baseCfg ['a'] linesInit 0 0 0
    (by decide) (by decide)⟩

/-- C4 (counterexample): doStyling is not idempotent in the scenario the
claim singles out.  With block comment delimiters /* and */, buffer
"*/ " and line 0 marked as starting inside block comment 0, the first
call styles "*/" as a Comment run and, since the range ends in
whitespace, clears line 0's commentContinuationId; the second call
therefore starts in Unknown state and styles "*/" as an Operator run,
so the style-run sequences differ. -/
theorem claim_C4_counterexample :
    (doStyling cfgBlock ['*', '/', ' ']
        (doStyling cfgBlock ['*', '/', ' ']
          (fun n => if n = 0 then (⟨0, 0, false⟩ : LineInfo) else LineInfo.initial)
          0 2 0).lines 0 2 0).runs ≠
      (doStyling cfgBlock ['*', '/', ' ']
        (fun n => if n = 0 then (⟨0, 0, false⟩ : LineInfo) else LineInfo.initial)
        0 2 0).runs := by
  decide

/-- C4 (amended): calling doStyling a second time on the same unchanged
range, with the LineState table as left by the first call, produces an
identical style-run sequence, an identical return value and an
identical LineState table, PROVIDED the first call left the starting
line's commentContinuationId unchanged.  (When the starting line begins
inside a block comment that closes on that line and the range ends in
whitespace, the first call clears that id, the second call starts in a
different state, and the style runs differ.) -/
theorem claim_C4_theorem (cfg : Cfg) (buf : Buffer) (lines : Lines) (s e line : Nat)
    (h : ((doStyling cfg buf lines s e line).lines line).commentIdx =
      (lines line).commentIdx) :
    (doStyling cfg buf (doStyling cfg buf lines s e line).lines s e line).runs =
        (doStyling cfg buf lines s e line).runs ∧
      (doStyling cfg buf (doStyling cfg buf lines s e line).lines s e line).result =
        (doStyling cfg buf lines s e line).result ∧
      (doStyling cfg buf (doStyling cfg buf lines s e line).lines s e line).lines =
        (doStyling cfg buf lines s e line).lines := by
  have hM : styleMachine cfg buf (doStyling cfg buf lines s e line).lines s e line =
      styleMachine cfg buf lines s e line := by
    simp only [styleMachine, h]
  refine ⟨?_, ?_, ?_⟩
  · show (styleMachine cfg buf (doStyling cfg buf lines s e line).lines s e line).runs = _
    rw [hM]
    rfl
  · show decide ((styleMachine cfg buf (doStyling cfg buf lines s e line).lines s e
        line).ls.state = LexSt.comment) = _
    rw [hM]
    rfl
  · show applyLineUpdates
        (styleMachine cfg buf (doStyling cfg buf lines s e line).lines s e line)
        (doStyling cfg buf lines s e line).lines line = _
    rw [hM]
    exact applyLineUpdates_idem (styleMachine cfg buf lines s e line) lines line

theorem claim_C4_witness :
    ((doStyling baseCfg ['a'] linesInit 0 0 0).lines 0).commentIdx =
        (linesInit 0).commentIdx ∧
      (doStyling baseCfg ['a'] (doStyling baseCfg ['a'] linesInit 0 0 0).lines 0 0 0).runs =
        (doStyling baseCfg ['a'] linesInit 0 0 0).runs :=
  ⟨by decide, (claim_C4_theorem baseCfg ['a'] linesInit 0 0 0 (by decide)).1⟩

/-- C5 (counterexample): the computed fold level is clamped at the
constant wxSTC_FOLDLEVELBASE (0x400), not at the caller-supplied base
fold level: starting updateFolding at a line whose masked fold level is
0x402 with a fold increment of -5 writes the level 0x400 for the next
line, which is below the caller-supplied base 0x402. -/
theorem claim_C5_counterexample :
    ¬ ∀ p ∈ updateFolding
        (fun n => if n = 0 then (⟨-1, -5, false⟩ : LineInfo) else LineInfo.initial)
        2 0 0x402,
      0x402 ≤ p.2 &&& foldLevelNumberMask := by
  decide

/-- C5 (amended): in updateFolding, for every line processed, the
computed fold level never goes below the constant minimum fold level
wxSTC_FOLDLEVELBASE (0x400): whenever the caller-supplied base level is
at least wxSTC_FOLDLEVELBASE, every value written to the fold-level
sink is at least wxSTC_FOLDLEVELBASE, no matter how negative the
accumulated per-line foldIncrement values are.  The level can however
drop below the caller-supplied base level read for line_start. -/
theorem claim_C5_theorem (lines : Lines) (lineCount lineStart baseLevel : Nat)
    (h : foldLevelBase ≤ baseLevel) :
    ∀ p ∈ updateFolding lines lineCount lineStart baseLevel, foldLevelBase ≤ p.2 :=
  updateFoldingGo_ge_base lines (lineCount - lineStart) lineStart baseLevel h

theorem claim_C5_witness :
    foldLevelBase ≤ 0x402 ∧
      ∀ p ∈ updateFolding
          (fun n => if n = 0 then (⟨-1, -5, false⟩ : LineInfo) else LineInfo.initial)
          2 0 0x402,
        foldLevelBase ≤ p.2 :=
  ⟨by decide, claim_C5_theorem
    (fun n => if n = 0 then (⟨-1, -5, false⟩ : LineInfo) else LineInfo.initial)
    2 0 0x402 (by decide)⟩

/-- C6: updateFolding emits, for the k-th processed line, exactly the
SetFoldLevel calls described by foldEntriesFor at the levels of the
closed recurrence foldLevelSeq: when the level is about to increase and
the line's hasWord flag is false, the header flag is attached to the
previous line (which receives the current level with the header flag)
while the line itself receives the increased level; when hasWord is
true the header flag is attached to the line itself; otherwise the line
receives the current level.  updateFolding is a pure function of the
LineState table (it reads lines and returns only the list of writes to
the external fold-level sink). -/
theorem claim_C6_theorem (lines : Lines) (lineCount lineStart baseLevel : Nat) :
    updateFolding lines lineCount lineStart baseLevel =
      (List.range (lineCount - lineStart)).flatMap
        (fun k => foldEntriesFor lines (lineStart + k)
          (foldLevelSeq lines lineStart baseLevel k)
          (foldLevelSeq lines lineStart baseLevel (k + 1))) :=
  updateFoldingGo_eq_flatMap lines (lineCount - lineStart) lineStart baseLevel

/-- C7: loadLanguage clears the word table, then re-populates it in the
fixed order Constant, Property, Function, Type, Keyword, where adding a
token already present overwrites its stored style; therefore a token in
both the Constant and the Keyword list is styled Keyword by styleWord
(Lexer::clearWords itself is not under src/ and is modelled from the
spec as emptying the table; ZScriptLexer::clearWords additionally
clears the function list). -/
theorem claim_C7_theorem (cfg : Cfg) (lang : Language) (w : List Char)
    (hz : cfg.zscript = false) (hc : w ∈ lang.constants) (hk : w ∈ lang.keywords) :
    styleWordBase (loadLanguage cfg (some lang)) w = (w.length, styleKeyword) := by
  have hlook := loadLanguage_keyword_style cfg lang hz w hk
  have hlang : (loadLanguage cfg (some lang)).lang = lang := rfl
  simp only [styleWordBase, hlang, hlook]
  norm_num [styleKeyword]

theorem claim_C7_witness :
    (baseCfg.zscript = false ∧ ['i', 'f'] ∈ langKW.constants ∧
        ['i', 'f'] ∈ langKW.keywords) ∧
      styleWordBase (loadLanguage baseCfg (some langKW)) ['i', 'f'] =
        (List.length ['i', 'f'], styleKeyword) :=
  ⟨⟨by decide, by decide, by decide⟩,
    claim_C7_theorem baseCfg langKW ['i', 'f'] (by decide) (by decide) (by decide)⟩

/-- C9 (counterexample): with no language loaded, doStyling is NOT a
full Default passthrough: string detection still runs, so for the
buffer made of a double quote, the letter a and a closing double quote,
a three-character run styled String is emitted. -/
theorem claim_C9_counterexample :
    ¬ ∀ x ∈ (doStyling baseCfg [quoteChar, 'a', quoteChar] linesInit 0 2 0).runs,
      x.1 = 0 ∨ x.2 = styleDefault := by
  decide

/-- C9 (amended): when no language definition is loaded and the
starting line is not marked as continuing a block comment, doStyling
never fails: it still covers the whole requested range (the run lengths
sum to at least e - s + 1), and every emitted run is styled Default or
String; double-quote delimited runs are detected and styled String even
without a language, and everything else degrades to Default. -/
theorem claim_C9_theorem (cfg : Cfg) (buf : Buffer) (lines : Lines) (s e line : Nat)
    (hl : cfg.language = none) (hci : (lines line).commentIdx < 0) :
    (e + 1 ≤ s + sumRuns (doStyling cfg buf lines s e line).runs) ∧
      ∀ x ∈ (doStyling cfg buf lines s e line).runs,
        x.2 = styleDefault ∨ x.2 = styleString := by
  refine ⟨doStyling_covers cfg buf lines s e line, ?_⟩
  have hx : ¬ 0 ≤ (lines line).commentIdx := by omega
  have hruns : (doStyling cfg buf lines s e line).runs =
      (runMachineF cfg buf (measureLs ⟨s, e, line, LexSt.unknown, 0, 0, false⟩ + 1)
        ⟨s, e, line, LexSt.unknown, 0, 0, false⟩ (-1)).runs := by
    show (styleMachine cfg buf lines s e line).runs = _
    simp only [styleMachine, runMachine, if_neg hx]
  rw [hruns]
  exact runMachineF_noLang cfg buf hl _ _ _ (Nat.lt_succ_self _) (Or.inl rfl)

theorem claim_C9_witness :
    (baseCfg.language = none ∧ (linesInit 0).commentIdx < 0) ∧
      ∀ x ∈ (doStyling baseCfg ['a', 'b'] linesInit 0 1 0).runs,
        x.2 = styleDefault ∨ x.2 = styleString :=
  ⟨⟨rfl, by decide⟩,
    (claim_C9_theorem baseCfg ['a', 'b'] linesInit 0 1 0 rfl (by decide)).2⟩

/-- C10: checkToken returns false for the empty token (so a language
configured with an empty doc-comment, line-comment or block begin/end
token never triggers the corresponding branch), every successful match
has positive token length (which is what makes every consuming step of
the scanning loops advance the position), and the list overload returns
the lowest matching index in list order. -/
theorem claim_C10_theorem (buf : Buffer) (pos : Nat) (t : List Char)
    (ts : List (List Char)) (i : Nat)
    (ht : checkToken buf pos t = true) (hL : checkTokenL buf pos ts = some i) :
    checkToken buf pos [] = false ∧ 0 < t.length ∧
      i < ts.length ∧ checkToken buf pos (ts.getD i []) = true ∧
      ∀ j, j < i → checkToken buf pos (ts.getD j []) = false := by
  obtain ⟨ha, hb, hc⟩ := checkTokenL_spec buf pos ts i hL
  exact ⟨rfl, checkToken_pos buf pos t ht, ha, hb, hc⟩

theorem claim_C10_witness :
    (checkToken ['a', 'b'] 0 ['a'] = true ∧
        checkTokenL ['a', 'b'] 0 [['x'], ['a', 'b']] = some 1) ∧
      (checkToken ['a', 'b'] 0 [] = false ∧ 0 < List.length ['a'] ∧
        1 < List.length [['x'], ['a', 'b']] ∧
        checkToken ['a', 'b'] 0 ([['x'], ['a', 'b']].getD 1 []) = true ∧
        ∀ j, j < 1 → checkToken ['a', 'b'] 0 ([['x'], ['a', 'b']].getD j []) = false) :=
  ⟨⟨by decide, by decide⟩,
    claim_C10_theorem ['a', 'b'] 0 ['a'] [['x'], ['a', 'b']] 1 (by decide) (by decide)⟩

/-- C2: doStyling returns true exactly when the FSM state at the end
of the range is Comment; exactly in that case the stored
commentContinuationId of the following line is set to
curr_comment_idx_, the (nonnegative) id of the block-comment delimiter
currently open.  Continuation: when the starting line is marked as
continuing block comment i (so the call starts in Comment state), the
emitted runs classify text as Comment until the matching end token of
delimiter i: if that end token occurs nowhere in the range the whole
range is one Comment run, the final state stays Comment and the id i
is propagated to the following line; if its first occurrence starts at
m, the first emitted run is the Comment run reaching to the end of
that token. -/
theorem claim_C2_theorem (cfg : Cfg) (buf : Buffer) (lines : Lines) (s e line : Nat) :
    ((doStyling cfg buf lines s e line).result = true ↔
      (doStyling cfg buf lines s e line).finalState = .comment) ∧
    ((doStyling cfg buf lines s e line).finalState = .comment →
      ((doStyling cfg buf lines s e line).lines (line + 1)).commentIdx =
          (doStyling cfg buf lines s e line).finalCommentIdx ∧
        0 ≤ (doStyling cfg buf lines s e line).finalCommentIdx) ∧
    (∀ i : Int, (lines line).commentIdx = i → 0 ≤ i → s ≤ e →
      ((∀ j, s ≤ j → j ≤ e →
          checkToken buf j (cfg.lang.commentEndL.getD i.toNat []) = false) →
        (doStyling cfg buf lines s e line).runs = [(e + 1 - s, styleComment)] ∧
          (doStyling cfg buf lines s e line).finalState = .comment ∧
          ((doStyling cfg buf lines s e line).lines (line + 1)).commentIdx = i) ∧
      (∀ m, s ≤ m → m ≤ e →
        checkToken buf m (cfg.lang.commentEndL.getD i.toNat []) = true →
        (∀ j, s ≤ j → j < m →
          checkToken buf j (cfg.lang.commentEndL.getD i.toNat []) = false) →
        (doStyling cfg buf lines s e line).runs.head? =
          some (m - s + (cfg.lang.commentEndL.getD i.toNat []).length, styleComment))) := by
  refine ⟨?_, ?_, ?_⟩
  · show decide ((styleMachine cfg buf lines s e line).ls.state = .comment) = true ↔
      (styleMachine cfg buf lines s e line).ls.state = .comment
    exact decide_eq_true_iff
  · intro hc
    have hc2 : (styleMachine cfg buf lines s e line).ls.state = .comment := hc
    constructor
    · show (applyLineUpdates (styleMachine cfg buf lines s e line) lines line
          (line + 1)).commentIdx = (styleMachine cfg buf lines s e line).commentIdx
      rw [applyLineUpdates_at_next]
      simp [hc2]
    · exact styleMachine_ci cfg buf lines s e line hc2
  · intro i hi hpos hse
    have hx : 0 ≤ (lines line).commentIdx := by rw [hi]; exact hpos
    have hsm : styleMachine cfg buf lines s e line =
        runMachine cfg buf ⟨s, e, line, .comment, 0, 0, false⟩ i := by
      simp only [styleMachine, hi, if_pos hpos]
    have htok : (if 0 ≤ i then cfg.lang.commentEndL.getD i.toNat [] else []) =
        cfg.lang.commentEndL.getD i.toNat [] := if_pos hpos
    obtain ⟨hA, hB⟩ := commentRunLoop_match (cfg.lang.commentEndL.getD i.toNat []) buf
      (e + 1 - s) s 0 _ rfl
    constructor
    · intro hnm
      have hhit : (commentRunLoop (cfg.lang.commentEndL.getD i.toNat []) buf
          (e + 1 - s) s 0).hitEnd = true := by
        cases hh : (commentRunLoop (cfg.lang.commentEndL.getD i.toNat []) buf
          (e + 1 - s) s 0).hitEnd
        · obtain ⟨m, hm1, hm2, hm3, _⟩ := hB hh
          have hcf := hnm m hm1 (by omega)
          rw [hcf] at hm3
          simp at hm3
        · rfl
      have hlen : (commentRunLoop (cfg.lang.commentEndL.getD i.toNat []) buf
          (e + 1 - s) s 0).len = 0 + (e + 1 - s) := (hA hhit).1
      have hdone : (stepFor cfg buf ⟨s, e, line, .comment, 0, 0, false⟩ i).done = true := by
        show (processComment cfg buf ⟨s, e, line, .comment, 0, 0, false⟩ i).done = true
        rw [processComment_done, htok]
        exact hhit
      have hrm := runMachine_first_done cfg buf ⟨s, e, line, .comment, 0, 0, false⟩ i hdone
      have hdone2 : (processComment cfg buf ⟨s, e, line, .comment, 0, 0, false⟩ i).done =
          true := hdone
      obtain ⟨hst, hci, _⟩ :=
        (processComment_spec cfg buf ⟨s, e, line, .comment, 0, 0, false⟩ i).2.2.2.2.1 hdone2
      have hstS : (styleMachine cfg buf lines s e line).ls.state = .comment := by
        rw [hsm, hrm]
        exact hst
      have hciS : (styleMachine cfg buf lines s e line).commentIdx = i := by
        rw [hsm, hrm]
        exact hci
      refine ⟨?_, hstS, ?_⟩
      · show (styleMachine cfg buf lines s e line).runs = _
        rw [hsm, hrm]
        show (processComment cfg buf ⟨s, e, line, .comment, 0, 0, false⟩ i).runs = _
        rw [processComment_runs, htok]
        show [((commentRunLoop (cfg.lang.commentEndL.getD i.toNat []) buf
            (e + 1 - s) s 0).len, styleComment)] = _
        rw [hlen, Nat.zero_add]
      · show (applyLineUpdates (styleMachine cfg buf lines s e line) lines line
            (line + 1)).commentIdx = i
        rw [applyLineUpdates_at_next]
        simp [hstS, hciS]
    · intro m hm1 hm2 hmt hleast
      have hhit : (commentRunLoop (cfg.lang.commentEndL.getD i.toNat []) buf
          (e + 1 - s) s 0).hitEnd = false := by
        cases hh : (commentRunLoop (cfg.lang.commentEndL.getD i.toNat []) buf
          (e + 1 - s) s 0).hitEnd
        · rfl
        · obtain ⟨_, hnone⟩ := hA hh
          have hcf := hnone m hm1 (by omega)
          rw [hmt] at hcf
          simp at hcf
      obtain ⟨m2, hm21, hm22, hm23, hm24, hm25⟩ := hB hhit
      have hmm : m2 = m := by
        rcases Nat.lt_trichotomy m2 m with h | h | h
        · have hcf := hleast m2 hm21 h
          rw [hcf] at hm23
          simp at hm23
        · exact h
        · have hcf := hm25 m hm1 h
          rw [hmt] at hcf
          simp at hcf
      subst hmm
      obtain ⟨rest, hhead⟩ := runMachineF_head_comment cfg buf
        (measureLs ⟨s, e, line, .comment, 0, 0, false⟩ + 1)
        ⟨s, e, line, .comment, 0, 0, false⟩ i rfl (Nat.succ_ne_zero _)
      show (styleMachine cfg buf lines s e line).runs.head? = _
      rw [hsm]
      show (runMachineF cfg buf (measureLs ⟨s, e, line, .comment, 0, 0, false⟩ + 1)
        ⟨s, e, line, .comment, 0, 0, false⟩ i).runs.head? = _
      rw [hhead, List.head?_cons, htok]
      show some ((commentRunLoop (cfg.lang.commentEndL.getD i.toNat []) buf
          (e + 1 - s) s 0).len, styleComment) = _
      rw [hm24]
      have harith : 0 + (m2 - s) + (cfg.lang.commentEndL.getD i.toNat []).length =
          m2 - s + (cfg.lang.commentEndL.getD i.toNat []).length := by omega
      rw [harith]

theorem claim_C2_witness :
    (((fun n => if n = 0 then (⟨0, 0, false⟩ : LineInfo) else LineInfo.initial) 0).commentIdx =
          (0 : Int) ∧ (0 : Int) ≤ 0 ∧ (0 : Nat) ≤ 3 ∧
        checkToken ['a', '*', '/', 'b'] 1 (cfgBlock.lang.commentEndL.getD (0 : Int).toNat []) =
          true) ∧
      (doStyling cfgBlock ['a', '*', '/', 'b']
          (fun n => if n = 0 then (⟨0, 0, false⟩ : LineInfo) else LineInfo.initial)
          0 3 0).runs.head? = some (3, styleComment) :=
  ⟨⟨by decide, by decide, by decide, by decide⟩,
    ((claim_C2_theorem cfgBlock ['a', '*', '/', 'b']
        (fun n => if n = 0 then (⟨0, 0, false⟩ : LineInfo) else LineInfo.initial)
        0 3 0).2.2 0 (by decide) (by decide) (by decide)).2 1 (by decide) (by decide)
      (by decide) (by decide)⟩

/-- C8: under the ZScript specialization, a word token whose
case-normalized form is in the registered function-name list is styled
Function exactly when the next non-whitespace character after the
token (skipping whitespace while within the styled range) is an
opening parenthesis; when it is not, the token falls through to the
base styleWord policy (word-table lookup, then preprocessor prefix,
then number, then Default) — which can never yield Function, because
under ZScript loadLanguage diverts all Function entries away from the
word table into the function-name list. -/
theorem claim_C8_theorem (cfg0 : Cfg) (lang : Language) (buf : Buffer)
    (pos endPos : Nat) (w : List Char)
    (hz : cfg0.zscript = true)
    (hf : (if lang.caseSensitive then w else lower w) ∈
      (loadLanguage cfg0 (some lang)).zfunctions) :
    ((styleWordD (loadLanguage cfg0 (some lang)) buf pos endPos w).2 = styleFunction ↔
      getCharAt buf (skipWs (loadLanguage cfg0 (some lang)).whitespaceChars buf
        (endPos - pos) pos) = '(') ∧
    (getCharAt buf (skipWs (loadLanguage cfg0 (some lang)).whitespaceChars buf
        (endPos - pos) pos) ≠ '(' →
      styleWordD (loadLanguage cfg0 (some lang)) buf pos endPos w =
        styleWordBase (loadLanguage cfg0 (some lang)) w) := by
  have hnf : ∀ x, (loadLanguage cfg0 (some lang)).wordList x ≠ styleFunction :=
    loadLanguage_z_no_fun cfg0 lang hz
  have hbase : (styleWordBase (loadLanguage cfg0 (some lang)) w).2 ≠ styleFunction :=
    styleWordBase_no_fun _ w hnf
  have hzc : (loadLanguage cfg0 (some lang)).zscript = true := hz
  have h1 : styleWordD (loadLanguage cfg0 (some lang)) buf pos endPos w =
      styleWordZ (loadLanguage cfg0 (some lang)) buf pos endPos w := by
    show (if (loadLanguage cfg0 (some lang)).zscript = true then
        styleWordZ (loadLanguage cfg0 (some lang)) buf pos endPos w
      else styleWordBase (loadLanguage cfg0 (some lang)) w) = _
    rw [if_pos hzc]
  have h2 : getCharAt buf (skipWs (loadLanguage cfg0 (some lang)).whitespaceChars buf
        (endPos - pos) pos) = '(' →
      styleWordZ (loadLanguage cfg0 (some lang)) buf pos endPos w =
        (w.length, styleFunction) := by
    intro hp
    show (if getCharAt buf (skipWs (loadLanguage cfg0 (some lang)).whitespaceChars buf
          (endPos - pos) pos) = '(' then
        if (if lang.caseSensitive then w else lower w) ∈
            (loadLanguage cfg0 (some lang)).zfunctions then
          (w.length, styleFunction)
        else styleWordBase (loadLanguage cfg0 (some lang)) w
      else styleWordBase (loadLanguage cfg0 (some lang)) w) = (w.length, styleFunction)
    rw [if_pos hp, if_pos hf]
  have h3 : getCharAt buf (skipWs (loadLanguage cfg0 (some lang)).whitespaceChars buf
        (endPos - pos) pos) ≠ '(' →
      styleWordZ (loadLanguage cfg0 (some lang)) buf pos endPos w =
        styleWordBase (loadLanguage cfg0 (some lang)) w := by
    intro hp
    show (if getCharAt buf (skipWs (loadLanguage cfg0 (some lang)).whitespaceChars buf
          (endPos - pos) pos) = '(' then
        if (if lang.caseSensitive then w else lower w) ∈
            (loadLanguage cfg0 (some lang)).zfunctions then
          (w.length, styleFunction)
        else styleWordBase (loadLanguage cfg0 (some lang)) w
      else styleWordBase (loadLanguage cfg0 (some lang)) w) =
      styleWordBase (loadLanguage cfg0 (some lang)) w
    rw [if_neg hp]
  by_cases hpar : getCharAt buf (skipWs (loadLanguage cfg0 (some lang)).whitespaceChars buf
      (endPos - pos) pos) = '('
  · refine ⟨⟨fun _ => hpar, fun _ => ?_⟩, fun hn => absurd hpar hn⟩
    rw [h1, h2 hpar]
  · refine ⟨⟨fun hstyf => ?_, fun hp => absurd hp hpar⟩, fun _ => ?_⟩
    · exfalso
      rw [h1, h3 hpar] at hstyf
      exact hbase hstyf
    · rw [h1, h3 hpar]

theorem claim_C8_witness :
    ((baseCfgZ.zscript = true ∧
        (if langFun.caseSensitive then ['f', 'o', 'o'] else lower ['f', 'o', 'o']) ∈
          (loadLanguage baseCfgZ (some langFun)).zfunctions) ∧
      ((styleWordD (loadLanguage baseCfgZ (some langFun)) ['f', 'o', 'o', '('] 3 3
          ['f', 'o', 'o']).2 = styleFunction ↔
        getCharAt ['f', 'o', 'o', '(']
          (skipWs (loadLanguage baseCfgZ (some langFun)).whitespaceChars
            ['f', 'o', 'o', '('] (3 - 3) 3) = '(')) :=
  ⟨⟨by decide, by decide⟩,
    (claim_C8_theorem baseCfgZ langFun ['f', 'o', 'o', '('] 3 3 ['f', 'o', 'o']
      (by decide) (by decide)).1⟩

end Slade
